import Mathlib

/-!
# csim.c: a set-associative cache simulator with LRU replacement

A shallow embedding of `src/csim.c` and a verification of its replacement
policy against a true-LRU reference cache.

Modelling conventions.

* The globals `s`, `E`, `b` are gathered in `Config`.  They are C `int`s; this
  development covers their non-negative values, as natural numbers.
* `mem_addr_t` (`unsigned long long`) values are natural numbers; the only
  operations `accessData` applies to them are `/` and `%`, which never leave
  the 64-bit range, so no reduction modulo `2^64` is needed.
* An `int` has 32 bits.  `(int) pow(2, e)` and the `int` product `B * S` are
  undefined in C when the value does not fit an `int`; the embedding returns
  `none` there.
* A read outside an allocated array and a read of the uninitialised local
  `prevCounter` are undefined in C; the embedding returns `none` there.
* The three statistics counters and the per-line `counter` are `int`s modelled
  in `Int`.  The code only adds or subtracts 1 and stores `E + 1`; leaving the
  `int` range takes `2^31` accesses or `E = INT_MAX`, which is not modelled.
* `malloc` is assumed to succeed; on failure `initCache` exits before any access.
-/

namespace Csim

/-! ## Data model -/

/-- The C struct `cache_line_t`: `char valid; mem_addr_t tag; int counter;`. -/
structure cache_line_t where
  valid : Char
  tag : Nat
  counter : Int
deriving DecidableEq

/-- The C type `cache_set_t`, a pointer to `E` lines. -/
abbrev cache_set_t := List cache_line_t

/-- The C type `cache_t`, a pointer to `S` sets. -/
abbrev cache_t := List cache_set_t

/-- The globals set from the command line: `s`, `E`, `b`. -/
structure Config where
  s : Nat
  E : Nat
  b : Nat
deriving DecidableEq

/-- The mutable globals of the simulation: the cache and the three counters. -/
structure State where
  cache : cache_t
  hit_cnt : Int
  miss_cnt : Int
  evict_cnt : Int
deriving DecidableEq

/-- The largest value of a C `int` (32 bits). -/
def INT_MAX : Int := 2147483647

/-- The C expression `(int) pow(2, e)`: defined when `2^e` fits an `int`. -/
def intPow2 (e : Nat) : Option Int :=
  if (2 : Int) ^ e ≤ INT_MAX then some ((2 : Int) ^ e) else none

/-- The C `int` product `x * y`: defined when the result fits an `int`. -/
def intMul (x y : Int) : Option Int :=
  if -INT_MAX - 1 ≤ x * y ∧ x * y ≤ INT_MAX then some (x * y) else none

/-- Conversion of an `int` operand to `unsigned long long`. -/
def toULL (x : Int) : Nat := (x % 18446744073709551616).toNat

/-! ## initCache -/

/-- The line written by the inner loop of `initCache`. -/
def emptyLine : cache_line_t := { valid := '0', tag := 0, counter := 0 }

/-- The function `initCache`: `S = pow(2, s)` sets of `E` lines, each with
`valid = '0'`, `tag = 0`, `counter = 0`. -/
def initCache (cfg : Config) : Option cache_t :=
  match intPow2 cfg.s with
  | none => none
  | some S => some (List.replicate S.toNat (List.replicate cfg.E emptyLine))

/-- The state in which `main` calls `replayTrace`: the cache built by
`initCache` and the three counters at their initial value 0. -/
def initState (cfg : Config) : Option State :=
  match initCache cfg with
  | none => none
  | some c => some { cache := c, hit_cnt := 0, miss_cnt := 0, evict_cnt := 0 }

/-! ## accessData -/

/-- The common shape of the three search loops of `accessData`:
`for (i = 0; i < E; i++) { curLine = set + i; if (p) { upd; prevCounter = old counter; break; } }`.
The first argument counts the iterations left, the second is the loop index.
The result is `none` on a read outside the set, `some none` when the loop ends
without a match, and the updated set with the value assigned to `prevCounter`
otherwise. -/
def scanLoop (p : cache_line_t → Bool) (upd : cache_line_t → cache_line_t)
    (set : cache_set_t) : Nat → Nat → Option (Option (cache_set_t × Int))
  | 0, _ => some none
  | n + 1, i =>
    match set[i]? with
    | none => none
    | some curLine =>
      if p curLine then some (some (set.set i (upd curLine), curLine.counter))
      else scanLoop p upd set n (i + 1)

/-- The test of the first loop: `curLine->valid == '1' && curLine->tag == tag`. -/
def hitTest (tag : Nat) (l : cache_line_t) : Bool :=
  decide (l.valid = '1') && decide (l.tag = tag)

/-- The update of the first loop: `curLine->counter = E + 1`. -/
def hitUpd (E : Nat) (l : cache_line_t) : cache_line_t :=
  { l with counter := (E : Int) + 1 }

/-- The test of the second loop: `curLine->valid == '0'`. -/
def fillTest (l : cache_line_t) : Bool := decide (l.valid = '0')

/-- The update of the second loop: `tag = tag; valid = '1'; counter = E + 1`. -/
def fillUpd (E : Nat) (tag : Nat) (_l : cache_line_t) : cache_line_t :=
  { valid := '1', tag := tag, counter := (E : Int) + 1 }

/-- The test of the third loop: `curLine->counter == 1`. -/
def evictTest (l : cache_line_t) : Bool := decide (l.counter = 1)

/-- The update of the third loop: `tag = tag; counter = E + 1`. -/
def evictUpd (E : Nat) (tag : Nat) (l : cache_line_t) : cache_line_t :=
  { l with tag := tag, counter := (E : Int) + 1 }

/-- The body of the last loop on one line:
`if (counterLine->counter > prevCounter) counterLine->counter--;`. -/
def decLine (prevCounter : Int) (l : cache_line_t) : cache_line_t :=
  if l.counter > prevCounter then { l with counter := l.counter - 1 } else l

/-- The last loop of `accessData`, `for (l = 0; l < E; l++)`.  `prevCounter` is
`none` while the local variable is uninitialised; reading it then is a fault. -/
def decLoop (prevCounter : Option Int) : cache_set_t → Nat → Nat → Option cache_set_t
  | set, 0, _ => some set
  | set, n + 1, l =>
    match set[l]?, prevCounter with
    | some counterLine, some prev =>
      decLoop prevCounter (set.set l (decLine prev counterLine)) n (l + 1)
    | _, _ => none

/-- The function `accessData`.  The result is `none` when the C code has
undefined behaviour (an `int` overflow in `pow(2, s)`, `pow(2, b)` or `B * S`,
a read outside the cache, a read of the uninitialised `prevCounter`). -/
def accessData (cfg : Config) (st : State) (addr : Nat) : Option State :=
  match intPow2 cfg.s, intPow2 cfg.b with
  | some S, some B =>
    match intMul B S with
    | none => none
    | some BS =>
      let set := (addr / toULL B) % toULL S
      let tag := addr / toULL BS
      match st.cache[set]? with
      | none => none
      | some lines =>
        match scanLoop (hitTest tag) (hitUpd cfg.E) lines cfg.E 0 with
        | none => none
        | some (some (lines1, prev)) =>
          (decLoop (some prev) lines1 cfg.E 0).map fun lines2 =>
            { st with cache := st.cache.set set lines2, hit_cnt := st.hit_cnt + 1 }
        | some none =>
          match scanLoop fillTest (fillUpd cfg.E tag) lines cfg.E 0 with
          | none => none
          | some (some (lines1, prev)) =>
            (decLoop (some prev) lines1 cfg.E 0).map fun lines2 =>
              { st with cache := st.cache.set set lines2, miss_cnt := st.miss_cnt + 1 }
          | some none =>
            match scanLoop evictTest (evictUpd cfg.E tag) lines cfg.E 0 with
            | none => none
            | some (some (lines1, prev)) =>
              (decLoop (some prev) lines1 cfg.E 0).map fun lines2 =>
                { st with cache := st.cache.set set lines2,
                          miss_cnt := st.miss_cnt + 1, evict_cnt := st.evict_cnt + 1 }
            | some none =>
              (decLoop none lines cfg.E 0).map fun lines2 =>
                { st with cache := st.cache.set set lines2,
                          miss_cnt := st.miss_cnt + 1, evict_cnt := st.evict_cnt + 1 }
  | _, _ => none

/-- The set index and the tag that `accessData` computes for `addr`:
`set = (addr / B) % S` and `tag = addr / (B * S)`. -/
def decode (cfg : Config) (addr : Nat) : Option (Nat × Nat) :=
  match intPow2 cfg.s, intPow2 cfg.b with
  | some S, some B =>
    match intMul B S with
    | none => none
    | some BS => some ((addr / toULL B) % toULL S, addr / toULL BS)
  | _, _ => none

/-- A sequence of `accessData` calls, one per address, in order. -/
def accessAll (cfg : Config) : State → List Nat → Option State
  | st, [] => some st
  | st, a :: rest =>
    match accessData cfg st a with
    | none => none
    | some st1 => accessAll cfg st1 rest

/-! ## replayTrace -/

/-- One line of a trace file as `replayTrace` reads it: the operation letter
`buf[1]` and the value of `addr` after the `sscanf`. -/
structure TraceEntry where
  op : Char
  addr : Nat
deriving DecidableEq

/-- The body of the `while` loop of `replayTrace` for one trace line. -/
def replayEntry (cfg : Config) (st : State) (e : TraceEntry) : Option State :=
  if e.op = 'S' ∨ e.op = 'L' ∨ e.op = 'M' then
    match (if e.op = 'S' ∨ e.op = 'L' then accessData cfg st e.addr else some st) with
    | none => none
    | some st1 =>
      if e.op = 'M' then
        match accessData cfg st1 e.addr with
        | none => none
        | some st2 => accessData cfg st2 e.addr
      else some st1
  else some st

/-- The function `replayTrace` on the lines of the trace file. -/
def replayTrace (cfg : Config) : State → List TraceEntry → Option State
  | st, [] => some st
  | st, e :: rest =>
    match replayEntry cfg st e with
    | none => none
    | some st1 => replayTrace cfg st1 rest

/-- The sequence of `accessData` calls that `replayTrace` makes for a trace:
one per `L` or `S` line, two per `M` line, none for any other line. -/
def traceAccesses : List TraceEntry → List Nat
  | [] => []
  | e :: rest =>
    if e.op = 'S' ∨ e.op = 'L' then e.addr :: traceAccesses rest
    else if e.op = 'M' then e.addr :: e.addr :: traceAccesses rest
    else traceAccesses rest

/-! ## Observing one access -/

/-- What one `accessData` call did, as seen from outside: a hit, a miss that
filled an empty line, or a miss that overwrote the tag `victim`. -/
inductive Outcome where
  | hit
  | miss
  | evict (victim : Nat)
deriving DecidableEq

/-- The increment of `hit_cnt` that goes with an outcome. -/
def Outcome.hits : Outcome → Int
  | Outcome.hit => 1
  | _ => 0

/-- The increment of `miss_cnt` that goes with an outcome. -/
def Outcome.misses : Outcome → Int
  | Outcome.hit => 0
  | _ => 1

/-- The increment of `evict_cnt` that goes with an outcome. -/
def Outcome.evictions : Outcome → Int
  | Outcome.evict _ => 1
  | _ => 0

/-- The old tag of the first line whose tag differs between two line lists. -/
def tagDiff : List cache_line_t → List cache_line_t → Option Nat
  | l :: ls, m :: ms => if l.tag = m.tag then tagDiff ls ms else some l.tag
  | _, _ => none

/-- The outcome of a call read off the states before and after it: which
counters went up by one and, for an eviction, which tag was overwritten. -/
def observe (st st1 : State) : Option Outcome :=
  if st1.hit_cnt = st.hit_cnt + 1 ∧ st1.miss_cnt = st.miss_cnt ∧
      st1.evict_cnt = st.evict_cnt then some Outcome.hit
  else if st1.hit_cnt = st.hit_cnt ∧ st1.miss_cnt = st.miss_cnt + 1 ∧
      st1.evict_cnt = st.evict_cnt then some Outcome.miss
  else if st1.hit_cnt = st.hit_cnt ∧ st1.miss_cnt = st.miss_cnt + 1 ∧
      st1.evict_cnt = st.evict_cnt + 1 then
    (tagDiff st.cache.flatten st1.cache.flatten).map Outcome.evict
  else none

/-- The outcomes of a sequence of `accessData` calls, one per address. -/
def outcomesFrom (cfg : Config) : State → List Nat → Option (List Outcome)
  | _, [] => some []
  | st, a :: rest =>
    match accessData cfg st a with
    | none => none
    | some st1 =>
      match observe st st1, outcomesFrom cfg st1 rest with
      | some o, some os => some (o :: os)
      | _, _ => none

/-! ## Reference model: true LRU -/

/-- The address decomposition in the words of the specification:
`blockNumber = address >> b`, `setIndex = blockNumber mod 2^s`,
`tag = blockNumber div 2^s`. -/
def specDecode (s b : Nat) (addr : Nat) : Nat × Nat :=
  ((addr >>> b) % 2 ^ s, (addr >>> b) / 2 ^ s)

/-- One access to a true-LRU set of capacity `E`.  The set is the list of its
resident tags, most recently accessed first.  A resident tag moves to the
front; a new tag is put in front, and when the set is full the tag at the
back, the least recently accessed one, is dropped. -/
def lruAccess (E : Nat) (q : List Nat) (t : Nat) : Outcome × List Nat :=
  if t ∈ q then (Outcome.hit, t :: q.erase t)
  else if q.length < E then (Outcome.miss, t :: q)
  else
    match q.getLast? with
    | some v => (Outcome.evict v, t :: q.dropLast)
    | none => (Outcome.miss, q)

/-- One access to the reference cache: a true-LRU set per set index. -/
def lruStep (cfg : Config) (ref : Nat → List Nat) (addr : Nat) :
    Outcome × (Nat → List Nat) :=
  let d := specDecode cfg.s cfg.b addr
  let r := lruAccess cfg.E (ref d.1) d.2
  (r.1, fun i => if i = d.1 then r.2 else ref i)

/-- The outcomes of a sequence of accesses to the reference cache. -/
def lruOutcomes (cfg : Config) : (Nat → List Nat) → List Nat → List Outcome
  | _, [] => []
  | ref, a :: rest =>
    (lruStep cfg ref a).1 :: lruOutcomes cfg (lruStep cfg ref a).2 rest

/-- The reference cache after a sequence of accesses. -/
def lruRun (cfg : Config) : (Nat → List Nat) → List Nat → (Nat → List Nat)
  | ref, [] => ref
  | ref, a :: rest => lruRun cfg (lruStep cfg ref a).2 rest

/-! ## The relation between a set of the simulator and a true-LRU set -/

/-- The tags of a true-LRU set with their recency ranks: the most recently
accessed tag has rank `top`, the next one `top - 1`, and so on. -/
def ranked : Int → List Nat → List (Nat × Int)
  | _, [] => []
  | top, t :: q => (t, top) :: ranked (top - 1) q

/-- The (tag, counter) pairs of the valid lines of a set, in storage order. -/
def validPairs (lines : cache_set_t) : List (Nat × Int) :=
  (lines.filter fun l => decide (l.valid = '1')).map fun l => (l.tag, l.counter)

/-- The effect of the last loop of `accessData` on a (tag, counter) pair. -/
def decPair (prev : Int) (p : Nat × Int) : Nat × Int :=
  (p.1, if p.2 > prev then p.2 - 1 else p.2)

/-- A set of the simulator represents the true-LRU set `q`: it has `E` lines,
every line is valid or is empty with counter 0, and the valid lines carry the
tags of `q`, the tag at position `i` of `q` with counter `E - i`. -/
def Rel (E : Nat) (lines : cache_set_t) (q : List Nat) : Prop :=
  lines.length = E ∧ q.Nodup ∧
  (∀ l ∈ lines, l.valid = '1' ∨ (l.valid = '0' ∧ l.counter = 0)) ∧
  (validPairs lines).Perm (ranked E q)

/-- A state of the simulator represents the reference cache `ref`. -/
def Inv (cfg : Config) (st : State) (ref : Nat → List Nat) : Prop :=
  st.cache.length = 2 ^ cfg.s ∧
  ∀ i, i < 2 ^ cfg.s → ∃ lines, st.cache[i]? = some lines ∧ Rel cfg.E lines (ref i)

/-- The recency counters of the valid lines of a set, in storage order. -/
def validCounters (lines : cache_set_t) : List Int :=
  (lines.filter fun l => decide (l.valid = '1')).map fun l => l.counter

/-- The tags of the valid lines of a set, in storage order. -/
def validTags (lines : cache_set_t) : List Nat :=
  (lines.filter fun l => decide (l.valid = '1')).map fun l => l.tag

/-- The `k` consecutive integers `lo, lo + 1, ..., lo + k - 1`. -/
def ranks (lo : Int) (k : Nat) : List Int :=
  (List.range k).map fun i => lo + (i : Int)

/-- The (set, tag) blocks that a sequence of addresses decodes to, in order. -/
def blocksOf (cfg : Config) (addrs : List Nat) : List (Nat × Nat) :=
  addrs.filterMap (decode cfg)

/-- The tags of those blocks of a list that fall in set `set`, in order. -/
def tagsIn (set : Nat) (blocks : List (Nat × Nat)) : List Nat :=
  (blocks.filter fun d => decide (d.1 = set)).map Prod.snd

/-- The tag of the last block of `earlier` that falls in set `set`, if any. -/
def prevTag (set : Nat) (earlier : List (Nat × Nat)) : Option Nat :=
  (earlier.reverse.find? fun d => decide (d.1 = set)).map Prod.snd

/-- The outcome of an access with tag `tag` to a one-line set whose previous
access, if any, carried the tag `prev`. -/
def directMappedOutcome (prev : Option Nat) (tag : Nat) : Outcome :=
  match prev with
  | none => Outcome.miss
  | some t => if t = tag then Outcome.hit else Outcome.evict t

/-- The outcomes of a sequence of block accesses when nothing is ever evicted:
a hit when the block was seen before, a miss otherwise. -/
def coldOutcomes : List (Nat × Nat) → List (Nat × Nat) → List Outcome
  | _, [] => []
  | seen, d :: rest =>
    (if d ∈ seen then Outcome.hit else Outcome.miss) :: coldOutcomes (d :: seen) rest

/-- The reference cache `ref` after the block accesses `hist`: every set holds
distinct tags that were accessed in it, and while a set is not full it holds all
the tags that were accessed in it. -/
def Hist (E : Nat) (ref : Nat → List Nat) (hist : List (Nat × Nat)) : Prop :=
  ∀ set, (ref set).Nodup ∧ (∀ t ∈ ref set, (set, t) ∈ hist) ∧
    ((ref set).length < E → ∀ t, (set, t) ∈ hist → t ∈ ref set)

/-- The reference cache `ref` of capacity 1 after the block accesses `hist`, in
order: every set holds the tag of the last access to it and nothing else. -/
def DirectMapped (ref : Nat → List Nat) (hist : List (Nat × Nat)) : Prop :=
  ∀ set, ref set = (prevTag set hist).toList

/-- A state that `accessData` calls reach from the initial state. -/
def Reachable (cfg : Config) (st : State) : Prop :=
  ∃ st0 addrs, initState cfg = some st0 ∧ accessAll cfg st0 addrs = some st

/-! ## main: the check of the required arguments -/

/-- What the program writes to standard output, by kind of message. -/
inductive Printed where
  | missingArgument
  | usage
deriving DecidableEq

/-- The end of the process: the status passed to `exit` and what was printed
before. -/
structure Exit where
  status : Int
  printed : List Printed
deriving DecidableEq

/-- The function `printUsage`: it prints the usage text and then calls
`exit(0)`, so it never returns to its caller. -/
def printUsage (printed : List Printed) : Except Exit (List Printed) :=
  Except.error { status := 0, printed := printed ++ [Printed.usage] }

/-- The check of the required arguments in `main`, after option parsing:
`if (s == 0 || E == 0 || b == 0 || trace_file == NULL) { printf(...); printUsage(argv); exit(1); }`.
`traceGiven` is false when `trace_file` is `NULL`.  The result is `Except.ok`
when `main` goes on to `initCache`. -/
def checkRequiredArgs (s E b : Int) (traceGiven : Bool) (printed : List Printed) :
    Except Exit (List Printed) :=
  if s = 0 ∨ E = 0 ∨ b = 0 ∨ traceGiven = false then
    match printUsage (printed ++ [Printed.missingArgument]) with
    | Except.error e => Except.error e
    | Except.ok out => Except.error { status := 1, printed := out }
  else Except.ok printed

end Csim

namespace Csim

/-! ## The loops as list operations -/

theorem getElem?_append_cons {α : Type} (pre : List α) (x : α) (xs : List α) :
    (pre ++ x :: xs)[pre.length]? = some x := by
  rw [List.getElem?_append_right (Nat.le_refl _)]
  simp

theorem set_append_cons {α : Type} (pre : List α) (x y : α) (xs : List α) :
    (pre ++ x :: xs).set pre.length y = pre ++ y :: xs := by
  simp

theorem scanLoop_none (p : cache_line_t → Bool) (upd : cache_line_t → cache_line_t)
    (rest : List cache_line_t) :
    ∀ pre : List cache_line_t, (∀ x ∈ rest, p x = false) →
      scanLoop p upd (pre ++ rest) rest.length pre.length = some none := by
  induction rest with
  | nil => intro pre _; simp [scanLoop]
  | cons x xs ih =>
    intro pre h
    have hx : p x = false := h x (by simp)
    have := ih (pre ++ [x]) (fun y hy => h y (by simp [hy]))
    simp only [List.length_append, List.length_singleton, List.append_assoc,
      List.singleton_append] at this
    simp only [List.length_cons, scanLoop, getElem?_append_cons, hx, this]
    simp

theorem scanLoop_found (p : cache_line_t → Bool) (upd : cache_line_t → cache_line_t)
    (l : cache_line_t) (post : List cache_line_t) (hl : p l = true) :
    ∀ (mid pre : List cache_line_t), (∀ x ∈ mid, p x = false) →
      scanLoop p upd (pre ++ (mid ++ l :: post)) (mid ++ l :: post).length pre.length
        = some (some (pre ++ (mid ++ upd l :: post), l.counter)) := by
  intro mid
  induction mid with
  | nil =>
    intro pre _
    simp only [List.nil_append, List.length_cons, scanLoop, getElem?_append_cons, hl,
      set_append_cons]
    simp
  | cons x xs ih =>
    intro pre h
    have hx : p x = false := h x (by simp)
    have := ih (pre ++ [x]) (fun y hy => h y (by simp [hy]))
    simp only [List.length_append, List.length_singleton, List.append_assoc,
      List.singleton_append, List.length_cons, List.length_nil, Nat.zero_add] at this
    simp only [List.cons_append, List.length_cons, List.length_append, scanLoop,
      getElem?_append_cons, hx]
    simpa using this

theorem decLoop_eq (prev : Int) (rest : List cache_line_t) :
    ∀ pre : List cache_line_t,
      decLoop (some prev) (pre ++ rest) rest.length pre.length
        = some (pre ++ rest.map (decLine prev)) := by
  induction rest with
  | nil => intro pre; simp [decLoop]
  | cons x xs ih =>
    intro pre
    have := ih (pre ++ [decLine prev x])
    simp only [List.length_append, List.length_singleton, List.append_assoc,
      List.singleton_append] at this
    simp only [List.length_cons, decLoop, getElem?_append_cons, set_append_cons, this]
    simp

theorem exists_first (p : cache_line_t → Bool) :
    ∀ lines : List cache_line_t, (∃ x ∈ lines, p x = true) →
      ∃ pre l post, lines = pre ++ l :: post ∧ (∀ x ∈ pre, p x = false) ∧ p l = true := by
  intro lines
  induction lines with
  | nil => intro h; simp at h
  | cons x xs ih =>
    intro h
    by_cases hx : p x = true
    · exact ⟨[], x, xs, rfl, by simp, hx⟩
    · have hx2 : p x = false := by simpa using hx
      obtain ⟨y, hy, hpy⟩ := h
      have hy2 : y ∈ xs := by
        rcases List.mem_cons.mp hy with h1 | h1
        · subst h1; simp [hx2] at hpy
        · exact h1
      obtain ⟨pre, l, post, e, h1, h2⟩ := ih ⟨y, hy2, hpy⟩
      refine ⟨x :: pre, l, post, by simp [e], ?_, h2⟩
      intro z hz
      rcases List.mem_cons.mp hz with h3 | h3
      · subst h3; exact hx2
      · exact h1 z h3

/-! ## Ranks of a true-LRU set -/

theorem ranked_length (q : List Nat) : ∀ top : Int, (ranked top q).length = q.length := by
  induction q with
  | nil => intro top; rfl
  | cons t q ih => intro top; simp [ranked, ih]

theorem ranked_map_fst (q : List Nat) : ∀ top : Int, (ranked top q).map Prod.fst = q := by
  induction q with
  | nil => intro top; rfl
  | cons t q ih => intro top; simp [ranked, ih]

theorem ranked_append (q1 q2 : List Nat) :
    ∀ top : Int, ranked top (q1 ++ q2) = ranked top q1 ++ ranked (top - q1.length) q2 := by
  induction q1 with
  | nil => intro top; simp [ranked]
  | cons t q ih =>
    intro top
    have e : top - 1 - (q.length : Int) = top - ((q.length : Int) + 1) := by omega
    have := ih (top - 1)
    rw [e] at this
    simp only [List.cons_append, ranked, List.length_cons, Nat.cast_add, Nat.cast_one]
    exact congrArg _ this

theorem ranked_bounds (q : List Nat) :
    ∀ (top : Int) (p : Nat × Int), p ∈ ranked top q → top - q.length < p.2 ∧ p.2 ≤ top := by
  induction q with
  | nil => intro top p h; simp [ranked] at h
  | cons t q ih =>
    intro top p h
    simp only [ranked, List.mem_cons] at h
    simp only [List.length_cons, Nat.cast_add, Nat.cast_one]
    rcases h with h | h
    · subst h; simp only; omega
    · have := ih (top - 1) p h
      omega

theorem ranked_mem_fst (q : List Nat) (top : Int) (p : Nat × Int) (h : p ∈ ranked top q) :
    p.1 ∈ q := by
  have : p.1 ∈ (ranked top q).map Prod.fst := List.mem_map_of_mem _ h
  rwa [ranked_map_fst] at this

theorem ranked_dec_hi (prev : Int) (q : List Nat) :
    ∀ top : Int, prev ≤ top - q.length → (ranked top q).map (decPair prev) = ranked (top - 1) q := by
  induction q with
  | nil => intro top _; rfl
  | cons t q ih =>
    intro top h
    simp only [List.length_cons, Nat.cast_add, Nat.cast_one] at h
    have h1 : top > prev := by omega
    simp only [ranked, List.map_cons, decPair, h1, if_true]
    rw [ih (top - 1) (by omega)]

theorem ranked_dec_lo (prev : Int) (q : List Nat) :
    ∀ top : Int, top ≤ prev → (ranked top q).map (decPair prev) = ranked top q := by
  induction q with
  | nil => intro top _; rfl
  | cons t q ih =>
    intro top h
    have h1 : ¬ top > prev := by omega
    simp only [ranked, List.map_cons, decPair, h1, if_false]
    rw [ih (top - 1) (by omega)]

theorem ranked_fst_unique (q : List Nat) (hq : q.Nodup) (top : Int) (p1 p2 : Nat × Int)
    (h1 : p1 ∈ ranked top q) (h2 : p2 ∈ ranked top q) (h : p1.1 = p2.1) : p1 = p2 := by
  have hn : ((ranked top q).map Prod.fst).Nodup := by rw [ranked_map_fst]; exact hq
  exact List.inj_on_of_nodup_map hn h1 h2 h

theorem ranked_snd_unique (q : List Nat) :
    ∀ (top : Int) (p1 p2 : Nat × Int), p1 ∈ ranked top q → p2 ∈ ranked top q →
      p1.2 = p2.2 → p1 = p2 := by
  induction q with
  | nil => intro top p1 p2 h1; simp [ranked] at h1
  | cons t q ih =>
    intro top p1 p2 h1 h2 h
    simp only [ranked, List.mem_cons] at h1 h2
    rcases h1 with h1 | h1 <;> rcases h2 with h2 | h2
    · rw [h1, h2]
    · have := ranked_bounds q (top - 1) p2 h2
      subst h1
      simp only at h
      omega
    · have := ranked_bounds q (top - 1) p1 h1
      subst h2
      simp only at h
      omega
    · exact ih (top - 1) p1 p2 h1 h2 h

/-! ## Valid pairs of a set -/

theorem validPairs_append (a c : List cache_line_t) :
    validPairs (a ++ c) = validPairs a ++ validPairs c := by
  simp [validPairs]

theorem validPairs_cons_valid (l : cache_line_t) (ls : List cache_line_t) (h : l.valid = '1') :
    validPairs (l :: ls) = (l.tag, l.counter) :: validPairs ls := by
  simp [validPairs, h]

theorem validPairs_cons_empty (l : cache_line_t) (ls : List cache_line_t) (h : l.valid ≠ '1') :
    validPairs (l :: ls) = validPairs ls := by
  simp [validPairs, h]

theorem decLine_valid (prev : Int) (l : cache_line_t) : (decLine prev l).valid = l.valid := by
  unfold decLine; split <;> rfl

theorem decLine_tag (prev : Int) (l : cache_line_t) : (decLine prev l).tag = l.tag := by
  unfold decLine; split <;> rfl

theorem decLine_counter (prev : Int) (l : cache_line_t) :
    (decLine prev l).counter = if l.counter > prev then l.counter - 1 else l.counter := by
  unfold decLine; split <;> rfl

theorem validPairs_map_decLine (prev : Int) (lines : List cache_line_t) :
    validPairs (lines.map (decLine prev)) = (validPairs lines).map (decPair prev) := by
  induction lines with
  | nil => rfl
  | cons l ls ih =>
    by_cases h : l.valid = '1'
    · have h2 : (decLine prev l).valid = '1' := by rw [decLine_valid]; exact h
      rw [List.map_cons, validPairs_cons_valid _ _ h2, validPairs_cons_valid _ _ h, ih,
        List.map_cons]
      simp [decPair, decLine_tag, decLine_counter]
    · have h2 : (decLine prev l).valid ≠ '1' := by rw [decLine_valid]; exact h
      rw [List.map_cons, validPairs_cons_empty _ _ h2, validPairs_cons_empty _ _ h, ih]

theorem validPairs_length_le (lines : List cache_line_t) :
    (validPairs lines).length ≤ lines.length := by
  simp only [validPairs, List.length_map]
  exact List.length_filter_le _ _

theorem mem_validPairs (lines : List cache_line_t) (p : Nat × Int) :
    p ∈ validPairs lines ↔ ∃ l ∈ lines, l.valid = '1' ∧ (l.tag, l.counter) = p := by
  simp [validPairs, and_assoc]

theorem map_tag_decLine (prev : Int) (lines : List cache_line_t) :
    (lines.map (decLine prev)).map (fun l => l.tag) = lines.map (fun l => l.tag) := by
  simp [decLine_tag]

/-! ## One access to one set -/

theorem Rel.length_le {E : Nat} {lines : cache_set_t} {q : List Nat} (h : Rel E lines q) :
    q.length ≤ E := by
  obtain ⟨hlen, _, _, hperm⟩ := h
  have h1 := hperm.length_eq
  rw [ranked_length] at h1
  have h2 := validPairs_length_le lines
  omega

theorem promote_rel (E : Nat) (prev : Int) (t : Nat) (pre post : List cache_line_t)
    (l2 : cache_line_t) (q2 : List Nat) (R : List (Nat × Int))
    (hlen : (pre ++ l2 :: post).length = E)
    (hv : l2.valid = '1') (ht : l2.tag = t) (hc : l2.counter = (E : Int) + 1)
    (hprev0 : 0 ≤ prev) (hprevE : prev ≤ E)
    (hinv : ∀ l ∈ pre ++ post, l.valid = '1' ∨ (l.valid = '0' ∧ l.counter = 0))
    (hrest : (validPairs pre ++ validPairs post).Perm R)
    (hdec : R.map (decPair prev) = ranked ((E : Int) - 1) q2)
    (hnd : (t :: q2).Nodup) :
    Rel E ((pre ++ l2 :: post).map (decLine prev)) (t :: q2) := by
  refine ⟨by simpa using hlen, hnd, ?_, ?_⟩
  · intro l hl
    obtain ⟨l0, hl0, rfl⟩ := List.mem_map.mp hl
    rw [decLine_valid]
    have hcases : l0 = l2 ∨ l0 ∈ pre ++ post := by
      simp only [List.mem_append, List.mem_cons] at hl0 ⊢
      tauto
    rcases hcases with h | h
    · subst h; exact Or.inl hv
    · rcases hinv l0 h with h1 | ⟨h1, h2⟩
      · exact Or.inl h1
      · refine Or.inr ⟨h1, ?_⟩
        rw [decLine_counter, h2]
        have : ¬ (0 : Int) > prev := by omega
        simp [this]
  · rw [validPairs_map_decLine, validPairs_append, validPairs_cons_valid _ _ hv,
      List.map_append, List.map_cons]
    have e1 : decPair prev (l2.tag, l2.counter) = (t, (E : Int)) := by
      have : (E : Int) + 1 > prev := by omega
      simp [decPair, ht, hc, this]
    rw [e1]
    have e2 : ranked (E : Int) (t :: q2) = (t, (E : Int)) :: ranked ((E : Int) - 1) q2 := rfl
    rw [e2, ← hdec]
    refine List.perm_middle.trans (List.Perm.cons _ ?_)
    rw [← List.map_append]
    exact hrest.map _

theorem hit_scan_none (E : Nat) (lines : cache_set_t) (q : List Nat) (t : Nat)
    (hR : Rel E lines q) (ht : t ∉ q) :
    scanLoop (hitTest t) (hitUpd E) lines E 0 = some none := by
  obtain ⟨hlen, _, _, hperm⟩ := hR
  have hall : ∀ x ∈ lines, hitTest t x = false := by
    intro x hx
    by_contra hc
    have hc2 : hitTest t x = true := by simpa using hc
    simp only [hitTest, Bool.and_eq_true, decide_eq_true_eq] at hc2
    have h1 : (x.tag, x.counter) ∈ validPairs lines :=
      (mem_validPairs _ _).mpr ⟨x, hx, hc2.1, rfl⟩
    have h2 := ranked_mem_fst q E _ (hperm.mem_iff.mp h1)
    exact ht (hc2.2 ▸ h2)
  have := scanLoop_none (hitTest t) (hitUpd E) lines [] hall
  simpa [hlen] using this

theorem set_hit (E : Nat) (lines : cache_set_t) (q : List Nat) (t : Nat)
    (hR : Rel E lines q) (ht : t ∈ q) :
    ∃ lines1 prev lines2,
      scanLoop (hitTest t) (hitUpd E) lines E 0 = some (some (lines1, prev)) ∧
      decLoop (some prev) lines1 E 0 = some lines2 ∧
      Rel E lines2 (t :: q.erase t) := by
  have hqE := hR.length_le
  obtain ⟨hlen, hnd, hinv, hperm⟩ := hR
  -- a valid line carries the tag
  have hex : ∃ x ∈ lines, hitTest t x = true := by
    have h1 : t ∈ (ranked E q).map Prod.fst := by rw [ranked_map_fst]; exact ht
    obtain ⟨p, hp, hpt⟩ := List.mem_map.mp h1
    obtain ⟨x, hx, hxv, hxp⟩ := (mem_validPairs _ _).mp (hperm.mem_iff.mpr hp)
    refine ⟨x, hx, ?_⟩
    have : x.tag = t := by rw [← hpt, ← hxp]
    simp [hitTest, hxv, this]
  obtain ⟨pre, l, post, e, hpre, hl⟩ := exists_first (hitTest t) lines hex
  subst e
  have hl2 : l.valid = '1' ∧ l.tag = t := by
    simpa [hitTest] using hl
  obtain ⟨q1, q2, eq⟩ := List.append_of_mem ht
  subst eq
  have hnd2 : (t :: (q1 ++ q2)).Nodup := List.nodup_middle.mp hnd
  have ht1 : t ∉ q1 := by
    intro h
    have := (List.nodup_cons.mp hnd2).1
    exact this (List.mem_append_left _ h)
  have herase : (q1 ++ t :: q2).erase t = q1 ++ q2 := by
    rw [List.erase_append_right _ ht1]
    simp
  have hrk : ranked (E : Int) (q1 ++ t :: q2)
      = ranked E q1 ++ (t, (E : Int) - q1.length) :: ranked ((E : Int) - q1.length - 1) q2 := by
    rw [ranked_append]; rfl
  have hc : l.counter = (E : Int) - q1.length := by
    have h1 : (l.tag, l.counter) ∈ validPairs (pre ++ l :: post) :=
      (mem_validPairs _ _).mpr ⟨l, by simp, hl2.1, rfl⟩
    have h2 := hperm.mem_iff.mp h1
    have h3 : (t, (E : Int) - q1.length) ∈ ranked (E : Int) (q1 ++ t :: q2) := by
      rw [hrk]; simp
    have := ranked_fst_unique _ hnd E _ _ h2 h3 hl2.2
    exact congrArg Prod.snd this
  have hq1 : (q1.length : Int) + 1 ≤ E := by
    have : (q1 ++ t :: q2).length ≤ E := hqE
    simp only [List.length_append, List.length_cons] at this
    omega
  have hrest : (validPairs pre ++ validPairs post).Perm
      (ranked E q1 ++ ranked ((E : Int) - q1.length - 1) q2) := by
    rw [validPairs_append, validPairs_cons_valid _ _ hl2.1, hrk, hl2.2, hc] at hperm
    have h1 := (List.perm_middle.symm.trans hperm).trans List.perm_middle
    exact h1.cons_inv
  have hdec : (ranked (E : Int) q1 ++ ranked ((E : Int) - q1.length - 1) q2).map
      (decPair l.counter) = ranked ((E : Int) - 1) (q1 ++ q2) := by
    rw [List.map_append, ranked_dec_hi _ _ _ (by omega), ranked_dec_lo _ _ _ (by omega),
      ranked_append]
    have : (E : Int) - 1 - q1.length = (E : Int) - q1.length - 1 := by omega
    rw [this]
  have hscan := scanLoop_found (hitTest t) (hitUpd E) l post hl pre [] hpre
  simp only [List.nil_append, List.length_nil] at hscan
  rw [hlen] at hscan
  have hdl := decLoop_eq l.counter (pre ++ hitUpd E l :: post) []
  simp only [List.nil_append, List.length_nil] at hdl
  have hlen2 : (pre ++ hitUpd E l :: post).length = E := by
    simpa using hlen
  rw [hlen2] at hdl
  refine ⟨_, _, _, hscan, hdl, ?_⟩
  rw [herase]
  refine promote_rel E l.counter t pre post (hitUpd E l) (q1 ++ q2) _ hlen2 hl2.1 hl2.2 rfl
    (by omega) (by omega) ?_ hrest hdec hnd2
  intro x hx
  apply hinv
  simp only [List.mem_append, List.mem_cons] at hx ⊢
  tauto

theorem all_valid_of_length (lines : List cache_line_t)
    (h : (validPairs lines).length = lines.length) : ∀ l ∈ lines, l.valid = '1' := by
  induction lines with
  | nil => intro l hl; simp at hl
  | cons x xs ih =>
    by_cases hx : x.valid = '1'
    · rw [validPairs_cons_valid _ _ hx] at h
      simp only [List.length_cons, Nat.add_right_cancel_iff] at h
      intro l hl
      rcases List.mem_cons.mp hl with h1 | h1
      · rw [h1]; exact hx
      · exact ih h l h1
    · rw [validPairs_cons_empty _ _ hx] at h
      have := validPairs_length_le xs
      simp only [List.length_cons] at h
      omega

theorem length_validPairs_of_all (lines : List cache_line_t)
    (h : ∀ l ∈ lines, l.valid = '1') : (validPairs lines).length = lines.length := by
  induction lines with
  | nil => rfl
  | cons x xs ih =>
    rw [validPairs_cons_valid _ _ (h x (by simp))]
    simp [ih (fun l hl => h l (by simp [hl]))]

theorem set_fill (E : Nat) (lines : cache_set_t) (q : List Nat) (t : Nat)
    (hR : Rel E lines q) (ht : t ∉ q) (hlt : q.length < E) :
    ∃ lines1 prev lines2,
      scanLoop fillTest (fillUpd E t) lines E 0 = some (some (lines1, prev)) ∧
      decLoop (some prev) lines1 E 0 = some lines2 ∧
      Rel E lines2 (t :: q) := by
  obtain ⟨hlen, hnd, hinv, hperm⟩ := hR
  have hvl : (validPairs lines).length = q.length := by
    rw [hperm.length_eq, ranked_length]
  have hex : ∃ x ∈ lines, fillTest x = true := by
    by_contra hc
    have hall : ∀ l ∈ lines, l.valid = '1' := by
      intro l hl
      rcases hinv l hl with h1 | ⟨h1, _⟩
      · exact h1
      · exact absurd ⟨l, hl, by simp [fillTest, h1]⟩ hc
    have := length_validPairs_of_all lines hall
    omega
  obtain ⟨pre, l, post, e, hpre, hl⟩ := exists_first fillTest lines hex
  subst e
  have hl0 : l.valid = '0' := by simpa [fillTest] using hl
  have hlv : l.valid ≠ '1' := by rw [hl0]; decide
  have hrest : (validPairs pre ++ validPairs post).Perm (ranked E q) := by
    rw [validPairs_append, validPairs_cons_empty _ _ hlv] at hperm
    exact hperm
  have hcnt : l.counter = 0 := by
    rcases hinv l (by simp) with h1 | ⟨_, h2⟩
    · exact absurd h1 hlv
    · exact h2
  have hdec : (ranked (E : Int) q).map (decPair l.counter) = ranked ((E : Int) - 1) q := by
    rw [hcnt]
    exact ranked_dec_hi 0 q E (by omega)
  have hscan := scanLoop_found fillTest (fillUpd E t) l post hl pre [] hpre
  simp only [List.nil_append, List.length_nil] at hscan
  rw [hlen] at hscan
  have hdl := decLoop_eq l.counter (pre ++ fillUpd E t l :: post) []
  simp only [List.nil_append, List.length_nil] at hdl
  have hlen2 : (pre ++ fillUpd E t l :: post).length = E := by
    simpa using hlen
  rw [hlen2] at hdl
  refine ⟨_, _, _, hscan, hdl, ?_⟩
  refine promote_rel E l.counter t pre post (fillUpd E t l) q _ hlen2 rfl rfl rfl
    (by omega) (by omega) ?_ hrest hdec (List.nodup_cons.mpr ⟨ht, hnd⟩)
  intro x hx
  apply hinv
  simp only [List.mem_append, List.mem_cons] at hx ⊢
  tauto

theorem tagDiff_append_left (A X Y : List cache_line_t) :
    tagDiff (A ++ X) (A ++ Y) = tagDiff X Y := by
  induction A with
  | nil => rfl
  | cons a A ih => simp [tagDiff, ih]

theorem tagDiff_split (prev : Int) (l l2 : cache_line_t) (X Y : List cache_line_t)
    (h : l.tag ≠ l2.tag) (pre : List cache_line_t) :
    tagDiff (pre ++ l :: X) (pre.map (decLine prev) ++ l2 :: Y) = some l.tag := by
  induction pre with
  | nil => simp [tagDiff, h]
  | cons a A ih => simp [tagDiff, decLine_tag, ih]

theorem set_evict (E : Nat) (lines : cache_set_t) (q : List Nat) (t : Nat)
    (hR : Rel E lines q) (ht : t ∉ q) (hge : ¬ q.length < E) (hE : 1 ≤ E) :
    ∃ lines1 prev lines2 v,
      scanLoop fillTest (fillUpd E t) lines E 0 = some none ∧
      scanLoop evictTest (evictUpd E t) lines E 0 = some (some (lines1, prev)) ∧
      decLoop (some prev) lines1 E 0 = some lines2 ∧
      q.getLast? = some v ∧
      Rel E lines2 (t :: q.dropLast) ∧
      ∀ A X Y, tagDiff (A ++ (lines ++ X)) (A ++ (lines2 ++ Y)) = some v := by
  have hqE := hR.length_le
  obtain ⟨hlen, hnd, hinv, hperm⟩ := hR
  have hvl : (validPairs lines).length = q.length := by
    rw [hperm.length_eq, ranked_length]
  have hall : ∀ l ∈ lines, l.valid = '1' := all_valid_of_length lines (by omega)
  have hfill : scanLoop fillTest (fillUpd E t) lines E 0 = some none := by
    have h1 : ∀ x ∈ lines, fillTest x = false := by
      intro x hx
      have := hall x hx
      simp only [fillTest, this, decide_eq_false_iff_not]
      decide
    have := scanLoop_none fillTest (fillUpd E t) lines [] h1
    simpa [hlen] using this
  rcases List.eq_nil_or_concat q with hq | ⟨q0, v, hq⟩
  · subst hq
    have : ([] : List Nat).length = 0 := rfl
    omega
  rw [List.concat_eq_append] at hq
  subst hq
  have hq0 : (q0.length : Int) + 1 = E := by
    simp only [List.length_append, List.length_singleton] at hge hqE
    omega
  have hrk : ranked (E : Int) (q0 ++ [v]) = ranked E q0 ++ [(v, (1 : Int))] := by
    rw [ranked_append]
    have : (E : Int) - q0.length = 1 := by omega
    rw [this]; rfl
  have hex : ∃ x ∈ lines, evictTest x = true := by
    have h1 : (v, (1 : Int)) ∈ ranked (E : Int) (q0 ++ [v]) := by rw [hrk]; simp
    obtain ⟨x, hx, _, hxp⟩ := (mem_validPairs _ _).mp (hperm.mem_iff.mpr h1)
    refine ⟨x, hx, ?_⟩
    have : x.counter = 1 := congrArg Prod.snd hxp
    simp [evictTest, this]
  obtain ⟨pre, l, post, e, hpre, hl⟩ := exists_first evictTest lines hex
  subst e
  have hl1 : l.counter = 1 := by simpa [evictTest] using hl
  have hlv : l.valid = '1' := hall l (by simp)
  have hltag : l.tag = v := by
    have h1 : (l.tag, l.counter) ∈ validPairs (pre ++ l :: post) :=
      (mem_validPairs _ _).mpr ⟨l, by simp, hlv, rfl⟩
    have h2 := hperm.mem_iff.mp h1
    have h3 : (v, (1 : Int)) ∈ ranked (E : Int) (q0 ++ [v]) := by rw [hrk]; simp
    have := ranked_snd_unique _ E (l.tag, l.counter) (v, 1) h2 h3 hl1
    exact congrArg Prod.fst this
  have hrest : (validPairs pre ++ validPairs post).Perm (ranked E q0) := by
    rw [validPairs_append, validPairs_cons_valid _ _ hlv, hrk, hltag, hl1] at hperm
    have h1 : ((v, (1 : Int)) :: (validPairs pre ++ validPairs post)).Perm
        ((v, (1 : Int)) :: ranked E q0) :=
      (List.perm_middle.symm.trans hperm).trans (List.perm_append_singleton _ _)
    exact h1.cons_inv
  have hdec : (ranked (E : Int) q0).map (decPair l.counter) = ranked ((E : Int) - 1) q0 := by
    rw [hl1]
    exact ranked_dec_hi 1 q0 E (by omega)
  have hscan := scanLoop_found evictTest (evictUpd E t) l post hl pre [] hpre
  simp only [List.nil_append, List.length_nil] at hscan
  rw [hlen] at hscan
  have hdl := decLoop_eq l.counter (pre ++ evictUpd E t l :: post) []
  simp only [List.nil_append, List.length_nil] at hdl
  have hlen2 : (pre ++ evictUpd E t l :: post).length = E := by
    simpa using hlen
  rw [hlen2] at hdl
  have htv : t ≠ v := by
    intro h
    exact ht (by simp [h])
  have hnd0 : (t :: q0).Nodup := by
    have h1 : q0.Nodup := (List.nodup_append.mp hnd).1
    have h2 : t ∉ q0 := fun h => ht (List.mem_append_left _ h)
    exact List.nodup_cons.mpr ⟨h2, h1⟩
  refine ⟨_, _, _, v, hfill, hscan, hdl, by simp, ?_, ?_⟩
  · rw [List.dropLast_concat]
    refine promote_rel E l.counter t pre post (evictUpd E t l) q0 _ hlen2 hlv rfl rfl
      (by omega) (by omega) ?_ hrest hdec hnd0
    intro x hx
    apply hinv
    simp only [List.mem_append, List.mem_cons] at hx ⊢
    tauto
  · intro A X Y
    rw [tagDiff_append_left, List.map_append, List.map_cons, List.append_assoc,
      List.append_assoc, List.cons_append, List.cons_append, ← hltag]
    apply tagDiff_split
    rw [decLine_tag, hltag]
    exact fun h => htv h.symm

/-! ## Address decoding -/

theorem toULL_pow2 (e : Nat) (h : (2 : Int) ^ e ≤ INT_MAX) : toULL ((2 : Int) ^ e) = 2 ^ e := by
  unfold toULL
  have h0 : (0 : Int) ≤ 2 ^ e := by positivity
  have h1 : (2 : Int) ^ e < 18446744073709551616 :=
    lt_of_le_of_lt h (by unfold INT_MAX; decide)
  rw [Int.emod_eq_of_lt h0 h1]
  have : (2 : Int) ^ e = ((2 ^ e : Nat) : Int) := by push_cast; rfl
  rw [this, Int.toNat_ofNat]

theorem pow2_le_of_add (s b : Nat) (h : (2 : Int) ^ (s + b) ≤ INT_MAX) :
    (2 : Int) ^ s ≤ INT_MAX ∧ (2 : Int) ^ b ≤ INT_MAX := by
  have h1 : (2 : Int) ^ s ≤ 2 ^ (s + b) := pow_le_pow_right₀ (by norm_num) (by omega)
  have h2 : (2 : Int) ^ b ≤ 2 ^ (s + b) := pow_le_pow_right₀ (by norm_num) (by omega)
  exact ⟨le_trans h1 h, le_trans h2 h⟩

theorem intPow2_eq (e : Nat) (h : (2 : Int) ^ e ≤ INT_MAX) : intPow2 e = some ((2 : Int) ^ e) := by
  simp [intPow2, h]

theorem intMul_pow2 (s b : Nat) (h : (2 : Int) ^ (s + b) ≤ INT_MAX) :
    intMul ((2 : Int) ^ b) ((2 : Int) ^ s) = some ((2 : Int) ^ (s + b)) := by
  have e : (2 : Int) ^ b * 2 ^ s = 2 ^ (s + b) := by rw [pow_add]; ring
  have h0 : (0 : Int) ≤ 2 ^ (s + b) := by positivity
  have h1 : -INT_MAX - 1 ≤ (2 : Int) ^ (s + b) := by
    have : -INT_MAX - 1 ≤ (0 : Int) := by unfold INT_MAX; decide
    exact le_trans this h0
  simp [intMul, e, h, h1]

theorem decode_eq (cfg : Config) (addr : Nat) (h : (2 : Int) ^ (cfg.s + cfg.b) ≤ INT_MAX) :
    decode cfg addr = some (specDecode cfg.s cfg.b addr) := by
  obtain ⟨hs, hb⟩ := pow2_le_of_add _ _ h
  simp only [decode, intPow2_eq _ hs, intPow2_eq _ hb, intMul_pow2 _ _ h, toULL_pow2 _ hs,
    toULL_pow2 _ hb, toULL_pow2 _ h, specDecode, Nat.shiftRight_eq_div_pow]
  rw [Nat.div_div_eq_div_mul, pow_add, Nat.mul_comm (2 ^ cfg.s)]

theorem specDecode_lt (s b addr : Nat) : (specDecode s b addr).1 < 2 ^ s :=
  Nat.mod_lt _ (by positivity)

/-! ## One access to the cache -/

theorem split_at {α : Type} (xs : List α) :
    ∀ (i : Nat) (x : α), xs[i]? = some x → ∃ A B, xs = A ++ x :: B ∧ A.length = i := by
  induction xs with
  | nil => intro i x h; simp at h
  | cons a xs ih =>
    intro i x h
    cases i with
    | zero =>
      simp only [List.getElem?_cons_zero, Option.some.injEq] at h
      exact ⟨[], xs, by simp [h], rfl⟩
    | succ i =>
      simp only [List.getElem?_cons_succ] at h
      obtain ⟨A, B, e, hl⟩ := ih i x h
      exact ⟨a :: A, B, by simp [e], by simp [hl]⟩

theorem Inv_update (cfg : Config) (st st1 : State) (ref : Nat → List Nat) (hI : Inv cfg st ref)
    (set : Nat) (hset : set < 2 ^ cfg.s) (lines2 : cache_set_t) (q2 : List Nat)
    (hR : Rel cfg.E lines2 q2) (hc : st1.cache = st.cache.set set lines2) :
    Inv cfg st1 (fun i => if i = set then q2 else ref i) := by
  obtain ⟨hlen, hsets⟩ := hI
  refine ⟨by rw [hc, List.length_set, hlen], ?_⟩
  intro i hi
  by_cases h : i = set
  · subst h
    refine ⟨lines2, ?_, by simpa using hR⟩
    rw [hc, List.getElem?_set_self]
    simp [hlen, hi]
  · obtain ⟨lines, h1, h2⟩ := hsets i hi
    refine ⟨lines, ?_, by simpa [h] using h2⟩
    rw [hc, List.getElem?_set_ne (fun e => h e.symm)]
    exact h1

theorem accessData_unfold (cfg : Config) (st : State) (addr : Nat)
    (h : (2 : Int) ^ (cfg.s + cfg.b) ≤ INT_MAX) (lines : cache_set_t)
    (hl : st.cache[(specDecode cfg.s cfg.b addr).1]? = some lines) :
    accessData cfg st addr =
      match scanLoop (hitTest (specDecode cfg.s cfg.b addr).2) (hitUpd cfg.E) lines cfg.E 0 with
      | none => none
      | some (some (lines1, prev)) =>
        (decLoop (some prev) lines1 cfg.E 0).map fun lines2 =>
          { st with cache := st.cache.set (specDecode cfg.s cfg.b addr).1 lines2,
                    hit_cnt := st.hit_cnt + 1 }
      | some none =>
        match scanLoop fillTest (fillUpd cfg.E (specDecode cfg.s cfg.b addr).2) lines cfg.E 0 with
        | none => none
        | some (some (lines1, prev)) =>
          (decLoop (some prev) lines1 cfg.E 0).map fun lines2 =>
            { st with cache := st.cache.set (specDecode cfg.s cfg.b addr).1 lines2,
                      miss_cnt := st.miss_cnt + 1 }
        | some none =>
          match scanLoop evictTest (evictUpd cfg.E (specDecode cfg.s cfg.b addr).2) lines
              cfg.E 0 with
          | none => none
          | some (some (lines1, prev)) =>
            (decLoop (some prev) lines1 cfg.E 0).map fun lines2 =>
              { st with cache := st.cache.set (specDecode cfg.s cfg.b addr).1 lines2,
                        miss_cnt := st.miss_cnt + 1, evict_cnt := st.evict_cnt + 1 }
          | some none =>
            (decLoop none lines cfg.E 0).map fun lines2 =>
              { st with cache := st.cache.set (specDecode cfg.s cfg.b addr).1 lines2,
                        miss_cnt := st.miss_cnt + 1, evict_cnt := st.evict_cnt + 1 } := by
  obtain ⟨hs, hb⟩ := pow2_le_of_add _ _ h
  have hd := decode_eq cfg addr h
  simp only [decode, intPow2_eq _ hs, intPow2_eq _ hb, intMul_pow2 _ _ h, Option.some.injEq] at hd
  have h1 := congrArg Prod.fst hd
  have h2 := congrArg Prod.snd hd
  simp only at h1 h2
  simp only [accessData, intPow2_eq _ hs, intPow2_eq _ hb, intMul_pow2 _ _ h]
  rw [h1, h2]
  simp only [hl]

theorem lruStep_hit (cfg : Config) (ref : Nat → List Nat) (addr : Nat)
    (ht : (specDecode cfg.s cfg.b addr).2 ∈ ref (specDecode cfg.s cfg.b addr).1) :
    lruStep cfg ref addr = (Outcome.hit, fun i => if i = (specDecode cfg.s cfg.b addr).1
      then (specDecode cfg.s cfg.b addr).2 ::
        (ref (specDecode cfg.s cfg.b addr).1).erase (specDecode cfg.s cfg.b addr).2
      else ref i) := by
  simp [lruStep, lruAccess, ht]

theorem lruStep_fill (cfg : Config) (ref : Nat → List Nat) (addr : Nat)
    (ht : (specDecode cfg.s cfg.b addr).2 ∉ ref (specDecode cfg.s cfg.b addr).1)
    (hlt : (ref (specDecode cfg.s cfg.b addr).1).length < cfg.E) :
    lruStep cfg ref addr = (Outcome.miss, fun i => if i = (specDecode cfg.s cfg.b addr).1
      then (specDecode cfg.s cfg.b addr).2 :: ref (specDecode cfg.s cfg.b addr).1
      else ref i) := by
  simp [lruStep, lruAccess, ht, hlt]

theorem lruStep_evict (cfg : Config) (ref : Nat → List Nat) (addr : Nat) (v : Nat)
    (ht : (specDecode cfg.s cfg.b addr).2 ∉ ref (specDecode cfg.s cfg.b addr).1)
    (hge : ¬ (ref (specDecode cfg.s cfg.b addr).1).length < cfg.E)
    (hv : (ref (specDecode cfg.s cfg.b addr).1).getLast? = some v) :
    lruStep cfg ref addr = (Outcome.evict v, fun i => if i = (specDecode cfg.s cfg.b addr).1
      then (specDecode cfg.s cfg.b addr).2 :: (ref (specDecode cfg.s cfg.b addr).1).dropLast
      else ref i) := by
  simp only [lruStep, lruAccess, ht, hge, if_false, hv]

/-- One `accessData` call on a state that represents the reference cache `ref`
succeeds, has the outcome of the reference access, and yields a state that
represents the reference cache after that access. -/
theorem accessData_step (cfg : Config) (st : State) (ref : Nat → List Nat) (addr : Nat)
    (hE : 1 ≤ cfg.E) (hsb : (2 : Int) ^ (cfg.s + cfg.b) ≤ INT_MAX) (hI : Inv cfg st ref) :
    ∃ st1, accessData cfg st addr = some st1 ∧
      Inv cfg st1 (lruStep cfg ref addr).2 ∧
      observe st st1 = some (lruStep cfg ref addr).1 ∧
      st1.hit_cnt = st.hit_cnt + (lruStep cfg ref addr).1.hits ∧
      st1.miss_cnt = st.miss_cnt + (lruStep cfg ref addr).1.misses ∧
      st1.evict_cnt = st.evict_cnt + (lruStep cfg ref addr).1.evictions := by
  have hset := specDecode_lt cfg.s cfg.b addr
  obtain ⟨lines, hl, hR⟩ := hI.2 _ hset
  rw [accessData_unfold cfg st addr hsb lines hl]
  by_cases ht : (specDecode cfg.s cfg.b addr).2 ∈ ref (specDecode cfg.s cfg.b addr).1
  · obtain ⟨lines1, prev, lines2, h1, h2, h3⟩ := set_hit cfg.E lines _ _ hR ht
    simp only [h1, h2, Option.map_some']
    rw [lruStep_hit cfg ref addr ht]
    refine ⟨_, rfl, Inv_update cfg st _ ref hI _ hset lines2 _ h3 rfl, ?_, ?_, ?_, ?_⟩
    · simp [observe]
    · simp [Outcome.hits]
    · simp [Outcome.misses]
    · simp [Outcome.evictions]
  · have h0 := hit_scan_none cfg.E lines _ _ hR ht
    by_cases hlt : (ref (specDecode cfg.s cfg.b addr).1).length < cfg.E
    · obtain ⟨lines1, prev, lines2, h1, h2, h3⟩ := set_fill cfg.E lines _ _ hR ht hlt
      simp only [h0, h1, h2, Option.map_some']
      rw [lruStep_fill cfg ref addr ht hlt]
      refine ⟨_, rfl, Inv_update cfg st _ ref hI _ hset lines2 _ h3 rfl, ?_, ?_, ?_, ?_⟩
      · simp [observe]
      · simp [Outcome.hits]
      · simp [Outcome.misses]
      · simp [Outcome.evictions]
    · obtain ⟨lines1, prev, lines2, v, h1, h2, h3, h4, h5, h6⟩ :=
        set_evict cfg.E lines _ _ hR ht hlt hE
      simp only [h0, h1, h2, h3, Option.map_some']
      rw [lruStep_evict cfg ref addr v ht hlt h4]
      refine ⟨_, rfl, Inv_update cfg st _ ref hI _ hset lines2 _ h5 rfl, ?_, ?_, ?_, ?_⟩
      · obtain ⟨A, B, e, hA⟩ := split_at st.cache _ _ hl
        have e2 : st.cache.set (specDecode cfg.s cfg.b addr).1 lines2 = A ++ lines2 :: B := by
          rw [e, ← hA, set_append_cons]
        simp only [observe, e2]
        rw [e]
        simp [h6]
      · simp [Outcome.hits]
      · simp [Outcome.misses]
      · simp [Outcome.evictions]

/-! ## The initial state -/

theorem validPairs_replicate_empty (n : Nat) : validPairs (List.replicate n emptyLine) = [] := by
  induction n with
  | zero => rfl
  | succ n ih =>
    rw [List.replicate_succ, validPairs_cons_empty _ _ (by decide), ih]

theorem Rel_init (E : Nat) : Rel E (List.replicate E emptyLine) [] := by
  refine ⟨by simp, List.nodup_nil, ?_, ?_⟩
  · intro l hl
    rw [List.eq_of_mem_replicate hl]
    exact Or.inr ⟨rfl, rfl⟩
  · rw [validPairs_replicate_empty]
    exact List.Perm.nil

theorem initState_eq (cfg : Config) (hs : (2 : Int) ^ cfg.s ≤ INT_MAX) :
    initState cfg = some { cache := List.replicate (2 ^ cfg.s) (List.replicate cfg.E emptyLine),
                           hit_cnt := 0, miss_cnt := 0, evict_cnt := 0 } := by
  have : ((2 : Int) ^ cfg.s).toNat = 2 ^ cfg.s := by
    have e : (2 : Int) ^ cfg.s = ((2 ^ cfg.s : Nat) : Int) := by push_cast; rfl
    rw [e, Int.toNat_ofNat]
  simp [initState, initCache, intPow2_eq _ hs, this]

theorem initState_inv (cfg : Config) (hs : (2 : Int) ^ cfg.s ≤ INT_MAX) :
    ∃ st0, initState cfg = some st0 ∧ Inv cfg st0 (fun _ => []) ∧
      st0.hit_cnt = 0 ∧ st0.miss_cnt = 0 ∧ st0.evict_cnt = 0 := by
  refine ⟨_, initState_eq cfg hs, ⟨by simp, ?_⟩, rfl, rfl, rfl⟩
  intro i hi
  refine ⟨List.replicate cfg.E emptyLine, ?_, Rel_init cfg.E⟩
  simp [List.getElem?_replicate, hi]

/-! ## Sequences of accesses -/

/-- A sequence of `accessData` calls on a state that represents `ref` succeeds,
has the outcomes of the reference cache, and ends in a state that represents
the reference cache after the same accesses. -/
theorem accessAll_sim (cfg : Config) (hE : 1 ≤ cfg.E)
    (hsb : (2 : Int) ^ (cfg.s + cfg.b) ≤ INT_MAX) (addrs : List Nat) :
    ∀ (st : State) (ref : Nat → List Nat), Inv cfg st ref →
      ∃ st1, accessAll cfg st addrs = some st1 ∧
        Inv cfg st1 (lruRun cfg ref addrs) ∧
        outcomesFrom cfg st addrs = some (lruOutcomes cfg ref addrs) ∧
        st1.hit_cnt = st.hit_cnt + ((lruOutcomes cfg ref addrs).map Outcome.hits).sum ∧
        st1.miss_cnt = st.miss_cnt + ((lruOutcomes cfg ref addrs).map Outcome.misses).sum ∧
        st1.evict_cnt
          = st.evict_cnt + ((lruOutcomes cfg ref addrs).map Outcome.evictions).sum := by
  induction addrs with
  | nil =>
    intro st ref hI
    exact ⟨st, rfl, hI, rfl, by simp [lruOutcomes], by simp [lruOutcomes],
      by simp [lruOutcomes]⟩
  | cons a rest ih =>
    intro st ref hI
    obtain ⟨st1, h1, h2, h3, h4, h5, h6⟩ := accessData_step cfg st ref a hE hsb hI
    obtain ⟨st2, k1, k2, k3, k4, k5, k6⟩ := ih st1 _ h2
    refine ⟨st2, ?_, k2, ?_, ?_, ?_, ?_⟩
    · simp [accessAll, h1, k1]
    · simp [outcomesFrom, h1, h3, k3, lruOutcomes]
    · simp only [lruOutcomes, List.map_cons, List.sum_cons]; omega
    · simp only [lruOutcomes, List.map_cons, List.sum_cons]; omega
    · simp only [lruOutcomes, List.map_cons, List.sum_cons]; omega

theorem reachable_inv (cfg : Config) (hE : 1 ≤ cfg.E)
    (hsb : (2 : Int) ^ (cfg.s + cfg.b) ≤ INT_MAX) (st : State) (h : Reachable cfg st) :
    ∃ ref, Inv cfg st ref := by
  obtain ⟨st0, addrs, h0, h1⟩ := h
  obtain ⟨st0b, k0, k1, _⟩ := initState_inv cfg (pow2_le_of_add _ _ hsb).1
  rw [h0] at k0
  cases k0
  obtain ⟨st1, m1, m2, _⟩ := accessAll_sim cfg hE hsb addrs st0 _ k1
  rw [h1] at m1
  cases m1
  exact ⟨_, m2⟩

theorem accessAll_append (cfg : Config) (xs ys : List Nat) :
    ∀ st : State, accessAll cfg st (xs ++ ys)
      = (accessAll cfg st xs).bind fun st1 => accessAll cfg st1 ys := by
  induction xs with
  | nil => intro st; rfl
  | cons a xs ih =>
    intro st
    simp only [List.cons_append, accessAll]
    cases accessData cfg st a with
    | none => rfl
    | some st1 => exact ih st1

theorem traceAccesses_cons (e : TraceEntry) (rest : List TraceEntry) :
    traceAccesses (e :: rest) = traceAccesses [e] ++ traceAccesses rest := by
  by_cases h1 : e.op = 'S' ∨ e.op = 'L'
  · simp [traceAccesses, h1]
  · by_cases h2 : e.op = 'M'
    · simp [traceAccesses, h1, h2]
    · simp [traceAccesses, h1, h2]

theorem replayEntry_eq (cfg : Config) (st : State) (e : TraceEntry) :
    replayEntry cfg st e = accessAll cfg st (traceAccesses [e]) := by
  obtain ⟨op, addr⟩ := e
  by_cases hS : op = 'S'
  · subst hS
    simp only [replayEntry, traceAccesses, accessAll, true_or, if_true]
    cases accessData cfg st addr <;> simp
  · by_cases hL : op = 'L'
    · subst hL
      simp only [replayEntry, traceAccesses, accessAll, true_or, or_true, if_true]
      cases accessData cfg st addr <;> simp
    · by_cases hM : op = 'M'
      · subst hM
        simp only [replayEntry, traceAccesses, accessAll]
        simp only [show ¬ ('M' = 'S' ∨ 'M' = 'L') by decide,
          show ('M' = 'S' ∨ 'M' = 'L' ∨ 'M' = 'M') by decide, if_true, if_false]
        cases accessData cfg st addr with
        | none => rfl
        | some st1 =>
          simp only
          cases accessData cfg st1 addr <;> rfl
      · simp [replayEntry, traceAccesses, accessAll, hS, hL, hM]

theorem replayTrace_eq_accessAll (cfg : Config) (tr : List TraceEntry) :
    ∀ st : State, replayTrace cfg st tr = accessAll cfg st (traceAccesses tr) := by
  induction tr with
  | nil => intro st; rfl
  | cons e rest ih =>
    intro st
    rw [traceAccesses_cons, accessAll_append, ← replayEntry_eq]
    simp only [replayTrace]
    cases replayEntry cfg st e with
    | none => rfl
    | some st1 => exact ih st1

/-! ## Consequences for reachable states -/

theorem inv_mem (cfg : Config) (st : State) (ref : Nat → List Nat) (hI : Inv cfg st ref)
    (lines : cache_set_t) (h : lines ∈ st.cache) : ∃ q, Rel cfg.E lines q := by
  obtain ⟨i, hi, e⟩ := List.getElem_of_mem h
  obtain ⟨lines2, h1, h2⟩ := hI.2 i (by rw [← hI.1]; exact hi)
  rw [List.getElem?_eq_getElem hi] at h1
  cases h1
  rw [← e]
  exact ⟨_, h2⟩

theorem validCounters_eq (lines : cache_set_t) :
    validCounters lines = (validPairs lines).map Prod.snd := by
  simp [validCounters, validPairs]

theorem validTags_eq (lines : cache_set_t) :
    validTags lines = (validPairs lines).map Prod.fst := by
  simp [validTags, validPairs]

theorem ranks_succ (lo : Int) (k : Nat) : ranks lo (k + 1) = ranks lo k ++ [lo + (k : Int)] := by
  simp [ranks, List.range_succ]

theorem ranked_snd_perm (q : List Nat) :
    ∀ top : Int, ((ranked top q).map Prod.snd).Perm (ranks (top - q.length + 1) q.length) := by
  induction q with
  | nil => intro top; exact List.Perm.nil
  | cons t q ih =>
    intro top
    have h := ih (top - 1)
    have e1 : top - 1 - (q.length : Int) + 1 = top - ((q.length : Int) + 1) + 1 := by omega
    have e2 : top - ((q.length : Int) + 1) + 1 + (q.length : Int) = top := by omega
    simp only [ranked, List.map_cons, List.length_cons, Nat.cast_add, Nat.cast_one, ranks_succ]
    rw [e1] at h
    rw [e2]
    exact (List.Perm.cons top h).trans (List.perm_append_singleton _ _).symm

theorem Rel.counters {E : Nat} {lines : cache_set_t} {q : List Nat} (h : Rel E lines q) :
    (validCounters lines).length ≤ E ∧
    (validCounters lines).Perm
      (ranks ((E : Int) - (validCounters lines).length + 1) (validCounters lines).length) := by
  have hle := h.length_le
  obtain ⟨_, _, _, hperm⟩ := h
  have hl : (validCounters lines).length = q.length := by
    rw [validCounters_eq, List.length_map, hperm.length_eq, ranked_length]
  rw [hl]
  refine ⟨hle, ?_⟩
  rw [validCounters_eq]
  exact (hperm.map Prod.snd).trans (ranked_snd_perm q E)

theorem Rel.tags {E : Nat} {lines : cache_set_t} {q : List Nat} (h : Rel E lines q) :
    (validTags lines).Nodup := by
  obtain ⟨_, hnd, _, hperm⟩ := h
  rw [validTags_eq]
  have := hperm.map Prod.fst
  rw [ranked_map_fst] at this
  exact this.nodup_iff.mpr hnd

theorem outcome_tally (o : Outcome) : o.hits + o.misses = 1 ∧ o.evictions ≤ o.misses ∧
    0 ≤ o.evictions := by
  cases o <;> simp [Outcome.hits, Outcome.misses, Outcome.evictions]

theorem outcomes_tally (os : List Outcome) :
    (os.map Outcome.hits).sum + (os.map Outcome.misses).sum = os.length ∧
    (os.map Outcome.evictions).sum ≤ (os.map Outcome.misses).sum := by
  induction os with
  | nil => simp
  | cons o os ih =>
    have := outcome_tally o
    simp only [List.map_cons, List.sum_cons, List.length_cons, Nat.cast_add, Nat.cast_one]
    omega

theorem lruOutcomes_length (cfg : Config) (addrs : List Nat) :
    ∀ ref, (lruOutcomes cfg ref addrs).length = addrs.length := by
  induction addrs with
  | nil => intro ref; rfl
  | cons a rest ih => intro ref; simp [lruOutcomes, ih]

theorem traceAccesses_length (tr : List TraceEntry) :
    ((traceAccesses tr).length : Int)
      = (tr.countP fun e => decide (e.op = 'L')) + (tr.countP fun e => decide (e.op = 'S'))
        + 2 * (tr.countP fun e => decide (e.op = 'M')) := by
  induction tr with
  | nil => rfl
  | cons e rest ih =>
    obtain ⟨op, addr⟩ := e
    by_cases hS : op = 'S'
    · subst hS
      simp only [traceAccesses, true_or, if_true, List.length_cons, List.countP_cons,
        Nat.cast_add, Nat.cast_one, ih]
      simp
      ring
    · by_cases hL : op = 'L'
      · subst hL
        simp only [traceAccesses, or_true, if_true, List.length_cons, List.countP_cons,
          Nat.cast_add, Nat.cast_one, ih]
        simp
        ring
      · by_cases hM : op = 'M'
        · subst hM
          simp only [traceAccesses, List.countP_cons, Nat.cast_add]
          simp
          omega
        · simp only [traceAccesses, hS, hL, hM, or_self, if_false, List.countP_cons, ih]
          simp

theorem lruStep_mem (cfg : Config) (hE : 1 ≤ cfg.E) (ref : Nat → List Nat) (addr : Nat) :
    (specDecode cfg.s cfg.b addr).2 ∈ (lruStep cfg ref addr).2 (specDecode cfg.s cfg.b addr).1 := by
  by_cases ht : (specDecode cfg.s cfg.b addr).2 ∈ ref (specDecode cfg.s cfg.b addr).1
  · rw [lruStep_hit cfg ref addr ht]; simp
  · by_cases hlt : (ref (specDecode cfg.s cfg.b addr).1).length < cfg.E
    · rw [lruStep_fill cfg ref addr ht hlt]; simp
    · cases hv : (ref (specDecode cfg.s cfg.b addr).1).getLast? with
      | none =>
        rw [List.getLast?_eq_none_iff] at hv
        rw [hv] at hlt
        simp at hlt
        omega
      | some v => rw [lruStep_evict cfg ref addr v ht hlt hv]; simp

/-! ## The reference cache and the history of accesses -/

theorem lruAccess_hist (E : Nat) (hE : 1 ≤ E) (q : List Nat) (t0 : Nat) (H : Nat → Prop)
    (hnd : q.Nodup) (h2 : ∀ t ∈ q, H t) (h3 : q.length < E → ∀ t, H t → t ∈ q) :
    (lruAccess E q t0).2.Nodup ∧
    (∀ t ∈ (lruAccess E q t0).2, t = t0 ∨ H t) ∧
    ((lruAccess E q t0).2.length < E → ∀ t, t = t0 ∨ H t → t ∈ (lruAccess E q t0).2) := by
  by_cases ht : t0 ∈ q
  · have e : lruAccess E q t0 = (Outcome.hit, t0 :: q.erase t0) := by simp [lruAccess, ht]
    rw [e]
    refine ⟨?_, ?_, ?_⟩
    · exact List.nodup_cons.mpr ⟨fun h => (List.Nodup.mem_erase_iff hnd).mp h |>.1 rfl,
        hnd.erase _⟩
    · intro t h
      rcases List.mem_cons.mp h with h | h
      · exact Or.inl h
      · exact Or.inr (h2 t (List.mem_of_mem_erase h))
    · intro hlen t h
      have hl : (t0 :: q.erase t0).length = q.length := by
        have := List.length_pos_of_mem ht
        simp only [List.length_cons, List.length_erase_of_mem ht]
        omega
      rw [hl] at hlen
      by_cases e : t = t0
      · simp [e]
      · have : t ∈ q := by
          rcases h with h | h
          · exact absurd h e
          · exact h3 hlen t h
        exact List.mem_cons_of_mem _ ((List.mem_erase_of_ne e).mpr this)
  · by_cases hlt : q.length < E
    · have e : lruAccess E q t0 = (Outcome.miss, t0 :: q) := by simp [lruAccess, ht, hlt]
      rw [e]
      refine ⟨List.nodup_cons.mpr ⟨ht, hnd⟩, ?_, ?_⟩
      · intro t h
        rcases List.mem_cons.mp h with h | h
        · exact Or.inl h
        · exact Or.inr (h2 t h)
      · intro _ t h
        rcases h with h | h
        · simp [h]
        · exact List.mem_cons_of_mem _ (h3 hlt t h)
    · cases hv : q.getLast? with
      | none =>
        rw [List.getLast?_eq_none_iff] at hv
        rw [hv] at hlt
        simp at hlt
        omega
      | some v =>
        have e : lruAccess E q t0 = (Outcome.evict v, t0 :: q.dropLast) := by
          simp only [lruAccess, ht, hlt, if_false, hv]
        rw [e]
        refine ⟨?_, ?_, ?_⟩
        · exact List.nodup_cons.mpr ⟨fun h => ht (List.dropLast_subset q h),
            hnd.sublist (List.dropLast_sublist q)⟩
        · intro t h
          rcases List.mem_cons.mp h with h | h
          · exact Or.inl h
          · exact Or.inr (h2 t (List.dropLast_subset q h))
        · intro hlen
          have hq : q ≠ [] := by
            intro h0
            rw [h0] at hv
            simp at hv
          have := List.length_pos_of_ne_nil hq
          simp only [List.length_cons, List.length_dropLast] at hlen
          omega

theorem Hist_init (E : Nat) : Hist E (fun _ => []) [] := by
  intro set
  exact ⟨List.nodup_nil, by simp, by simp⟩

theorem lruStep_hist (cfg : Config) (hE : 1 ≤ cfg.E) (ref : Nat → List Nat)
    (hist : List (Nat × Nat)) (a : Nat) (h : Hist cfg.E ref hist) :
    Hist cfg.E (lruStep cfg ref a).2 (specDecode cfg.s cfg.b a :: hist) := by
  intro set
  obtain ⟨k1, k2, k3⟩ := h set
  by_cases hs : set = (specDecode cfg.s cfg.b a).1
  · obtain ⟨m1, m2, m3⟩ := lruAccess_hist cfg.E hE (ref set) (specDecode cfg.s cfg.b a).2
      (fun t => (set, t) ∈ hist) k1 k2 k3
    have e : (lruStep cfg ref a).2 set
        = (lruAccess cfg.E (ref set) (specDecode cfg.s cfg.b a).2).2 := by
      simp [lruStep, hs]
    have hb : ∀ t, (set, t) ∈ specDecode cfg.s cfg.b a :: hist ↔
        (t = (specDecode cfg.s cfg.b a).2 ∨ (set, t) ∈ hist) := by
      intro t
      rw [List.mem_cons, hs]
      constructor
      · rintro (h | h)
        · left; rw [← h]
        · exact Or.inr h
      · rintro (h | h)
        · left; rw [h]
        · exact Or.inr h
    rw [e]
    refine ⟨m1, fun t ht => (hb t).mpr (m2 t ht), fun hl t ht => m3 hl t ((hb t).mp ht)⟩
  · have e : (lruStep cfg ref a).2 set = ref set := by simp [lruStep, hs]
    rw [e]
    refine ⟨k1, fun t ht => List.mem_cons_of_mem _ (k2 t ht), ?_⟩
    intro hl t ht
    rcases List.mem_cons.mp ht with h | h
    · exact absurd (congrArg Prod.fst h) hs
    · exact k3 hl t h

theorem lruRun_hist (cfg : Config) (hE : 1 ≤ cfg.E) (addrs : List Nat) :
    ∀ (ref : Nat → List Nat) (hist : List (Nat × Nat)), Hist cfg.E ref hist →
      Hist cfg.E (lruRun cfg ref addrs)
        ((addrs.map (specDecode cfg.s cfg.b)).reverse ++ hist) := by
  induction addrs with
  | nil => intro ref hist h; simpa [lruRun] using h
  | cons a rest ih =>
    intro ref hist h
    have := ih _ _ (lruStep_hist cfg hE ref hist a h)
    simpa [lruRun] using this

theorem lruOutcomes_getElem (cfg : Config) (addrs : List Nat) :
    ∀ (ref : Nat → List Nat) (i : Nat) (hi : i < addrs.length),
      (lruOutcomes cfg ref addrs)[i]?
        = some (lruStep cfg (lruRun cfg ref (addrs.take i)) addrs[i]).1 := by
  induction addrs with
  | nil => intro ref i hi; simp at hi
  | cons a rest ih =>
    intro ref i hi
    cases i with
    | zero => simp [lruOutcomes, lruRun]
    | succ i =>
      simp only [List.length_cons, Nat.add_lt_add_iff_right] at hi
      simpa [lruOutcomes, lruRun] using ih _ i hi

theorem hist_at (cfg : Config) (hE : 1 ≤ cfg.E) (addrs : List Nat) (i : Nat) :
    Hist cfg.E (lruRun cfg (fun _ => []) (addrs.take i))
      (((addrs.take i).map (specDecode cfg.s cfg.b)).reverse) := by
  have := lruRun_hist cfg hE (addrs.take i) _ _ (Hist_init cfg.E)
  simpa using this

theorem mem_tagsIn (set t : Nat) (blocks : List (Nat × Nat)) :
    t ∈ tagsIn set blocks ↔ (set, t) ∈ blocks := by
  simp only [tagsIn, List.mem_map, List.mem_filter, decide_eq_true_eq]
  constructor
  · rintro ⟨d, ⟨hd, h1⟩, h2⟩
    have : d = (set, t) := Prod.ext h1 h2
    rw [← this]; exact hd
  · intro h
    exact ⟨(set, t), ⟨h, rfl⟩, rfl⟩

theorem blocksOf_eq (cfg : Config) (hsb : (2 : Int) ^ (cfg.s + cfg.b) ≤ INT_MAX)
    (addrs : List Nat) : blocksOf cfg addrs = addrs.map (specDecode cfg.s cfg.b) := by
  induction addrs with
  | nil => rfl
  | cons a rest ih =>
    have := ih
    simp only [blocksOf] at this ⊢
    simp [List.filterMap_cons, decode_eq cfg a hsb, this]

theorem map_decode_eq (cfg : Config) (hsb : (2 : Int) ^ (cfg.s + cfg.b) ≤ INT_MAX)
    (addrs : List Nat) :
    addrs.map (decode cfg) = (addrs.map (specDecode cfg.s cfg.b)).map some := by
  induction addrs with
  | nil => rfl
  | cons a rest ih => simp [decode_eq cfg a hsb, ih]

theorem nodup_length_le_dedup {α : Type} [DecidableEq α] (l m : List α) (hnd : l.Nodup)
    (h : ∀ x ∈ l, x ∈ m) : l.length ≤ m.dedup.length :=
  (List.subperm_of_subset hnd (fun x hx => List.mem_dedup.mpr (h x hx))).length_le

theorem dedup_length_le {α : Type} [DecidableEq α] (l m : List α)
    (h : ∀ x ∈ m, x ∈ l) : m.dedup.length ≤ l.length :=
  (List.subperm_of_subset (List.nodup_dedup m)
    (fun x hx => h x (List.mem_dedup.mp hx))).length_le

theorem lruStep_not_hit (cfg : Config) (hE : 1 ≤ cfg.E) (ref : Nat → List Nat) (a : Nat)
    (ht : (specDecode cfg.s cfg.b a).2 ∉ ref (specDecode cfg.s cfg.b a).1) :
    (if (ref (specDecode cfg.s cfg.b a).1).length < cfg.E
      then (lruStep cfg ref a).1 = Outcome.miss
      else ∃ v, (ref (specDecode cfg.s cfg.b a).1).getLast? = some v ∧
        (lruStep cfg ref a).1 = Outcome.evict v) := by
  by_cases hlt : (ref (specDecode cfg.s cfg.b a).1).length < cfg.E
  · rw [if_pos hlt, lruStep_fill cfg ref a ht hlt]
  · rw [if_neg hlt]
    cases hv : (ref (specDecode cfg.s cfg.b a).1).getLast? with
    | none =>
      rw [List.getLast?_eq_none_iff] at hv
      rw [hv] at hlt
      simp at hlt
      omega
    | some v =>
      exact ⟨v, rfl, by rw [lruStep_evict cfg ref a v ht hlt hv]⟩

theorem hist_length_lt_iff (E : Nat) (ref : Nat → List Nat) (hist : List (Nat × Nat))
    (h : Hist E ref hist) (set : Nat) :
    (ref set).length < E ↔ (tagsIn set hist).dedup.length < E := by
  obtain ⟨k1, k2, k3⟩ := h set
  constructor
  · intro hl
    have := dedup_length_le (ref set) (tagsIn set hist)
      (fun t ht => k3 hl t ((mem_tagsIn set t hist).mp ht))
    omega
  · intro hl
    have := nodup_length_le_dedup (ref set) (tagsIn set hist) k1
      (fun t ht => (mem_tagsIn set t hist).mpr (k2 t ht))
    omega

theorem tagsIn_dedup_length_reverse (set : Nat) (blocks : List (Nat × Nat)) :
    (tagsIn set blocks.reverse).dedup.length = (tagsIn set blocks).dedup.length := by
  apply Nat.le_antisymm
  · apply nodup_length_le_dedup _ _ (List.nodup_dedup _)
    intro t ht
    rw [List.mem_dedup, mem_tagsIn] at ht
    rw [mem_tagsIn]
    simpa using ht
  · apply nodup_length_le_dedup _ _ (List.nodup_dedup _)
    intro t ht
    rw [List.mem_dedup, mem_tagsIn] at ht
    rw [mem_tagsIn]
    simpa using ht

/-! ## Traces without evictions -/

theorem coldOutcomes_length (bs : List (Nat × Nat)) :
    ∀ seen, (coldOutcomes seen bs).length = bs.length := by
  induction bs with
  | nil => intro seen; rfl
  | cons d rest ih => intro seen; simp [coldOutcomes, ih]

theorem coldOutcomes_getElem (bs : List (Nat × Nat)) :
    ∀ (seen : List (Nat × Nat)) (i : Nat) (hi : i < bs.length),
      (coldOutcomes seen bs)[i]?
        = some (if bs[i] ∈ seen ∨ bs[i] ∈ bs.take i then Outcome.hit else Outcome.miss) := by
  induction bs with
  | nil => intro seen i hi; simp at hi
  | cons d rest ih =>
    intro seen i hi
    cases i with
    | zero => simp [coldOutcomes]
    | succ i =>
      simp only [List.length_cons, Nat.add_lt_add_iff_right] at hi
      have := ih (d :: seen) i hi
      simp only [coldOutcomes, List.getElem?_cons_succ, this, List.getElem_cons_succ,
        List.take_succ_cons, List.mem_cons]
      congr 1
      by_cases h1 : rest[i] = d <;> by_cases h2 : rest[i] ∈ seen <;>
        by_cases h3 : rest[i] ∈ List.take i rest <;> simp [h1, h2, h3]

theorem coldOutcomes_evictions (bs : List (Nat × Nat)) :
    ∀ seen, ((coldOutcomes seen bs).map Outcome.evictions).sum = 0 := by
  induction bs with
  | nil => intro seen; rfl
  | cons d rest ih =>
    intro seen
    by_cases h : d ∈ seen <;> simp [coldOutcomes, h, ih, Outcome.evictions]

theorem coldOutcomes_misses (bs : List (Nat × Nat)) :
    ∀ seen, (seen.dedup.length : Int) + ((coldOutcomes seen bs).map Outcome.misses).sum
      = ((bs.reverse ++ seen).dedup.length : Int) := by
  induction bs with
  | nil => intro seen; simp [coldOutcomes]
  | cons d rest ih =>
    intro seen
    have := ih (d :: seen)
    have e : (d :: rest).reverse ++ seen = rest.reverse ++ d :: seen := by simp
    rw [e, ← this]
    by_cases h : d ∈ seen
    · simp [coldOutcomes, h, List.dedup_cons_of_mem h, Outcome.misses]
    · simp only [coldOutcomes, h, if_false, List.map_cons, List.sum_cons, Outcome.misses,
        List.dedup_cons_of_not_mem h, List.length_cons, Nat.cast_add, Nat.cast_one]
      omega

theorem dedup_length_reverse {α : Type} [DecidableEq α] (l : List α) :
    l.reverse.dedup.length = l.dedup.length := by
  apply Nat.le_antisymm
  · exact nodup_length_le_dedup _ _ (List.nodup_dedup _)
      (fun x hx => by simpa using List.mem_dedup.mp hx)
  · exact nodup_length_le_dedup _ _ (List.nodup_dedup _)
      (fun x hx => by simpa using List.mem_dedup.mp hx)

/-- When every set is asked for at most `E` distinct tags over the whole
sequence, the reference cache never evicts: its outcomes are hits on blocks
seen before and misses otherwise. -/
theorem lruOutcomes_cold (cfg : Config) (hE : 1 ≤ cfg.E) (addrs : List Nat)
    (hfit : ∀ set, set < 2 ^ cfg.s →
      (tagsIn set (addrs.map (specDecode cfg.s cfg.b))).dedup.length ≤ cfg.E) :
    lruOutcomes cfg (fun _ => []) addrs
      = coldOutcomes [] (addrs.map (specDecode cfg.s cfg.b)) := by
  apply List.ext_getElem?
  intro i
  by_cases hi : i < addrs.length
  · rw [lruOutcomes_getElem cfg addrs _ i hi,
      coldOutcomes_getElem _ [] i (by simpa using hi)]
    have hH := hist_at cfg hE addrs i
    obtain ⟨k1, k2, k3⟩ := hH (specDecode cfg.s cfg.b addrs[i]).1
    have hi2 : i < (List.map (specDecode cfg.s cfg.b) addrs).length := by simpa using hi
    have hb : (List.map (specDecode cfg.s cfg.b) addrs)[i]
        = specDecode cfg.s cfg.b addrs[i] := by simp
    have htake : List.take i (List.map (specDecode cfg.s cfg.b) addrs)
        = List.map (specDecode cfg.s cfg.b) (List.take i addrs) := by
      rw [List.map_take]
    rw [hb, htake]
    simp only [List.not_mem_nil, false_or]
    by_cases ht : (specDecode cfg.s cfg.b addrs[i]).2 ∈
        lruRun cfg (fun _ => []) (addrs.take i) (specDecode cfg.s cfg.b addrs[i]).1
    · have hm := k2 _ ht
      have hm2 : specDecode cfg.s cfg.b addrs[i]
          ∈ List.map (specDecode cfg.s cfg.b) (List.take i addrs) := by simpa using hm
      rw [lruStep_hit cfg _ _ ht, if_pos hm2]
    · have hlt : (lruRun cfg (fun _ => []) (addrs.take i)
          (specDecode cfg.s cfg.b addrs[i]).1).length < cfg.E := by
        have hnd : ((specDecode cfg.s cfg.b addrs[i]).2 ::
            lruRun cfg (fun _ => []) (addrs.take i)
              (specDecode cfg.s cfg.b addrs[i]).1).Nodup := List.nodup_cons.mpr ⟨ht, k1⟩
        have hsub := nodup_length_le_dedup _
          (tagsIn (specDecode cfg.s cfg.b addrs[i]).1 (addrs.map (specDecode cfg.s cfg.b)))
          hnd (by
            intro t htm
            rw [mem_tagsIn]
            rcases List.mem_cons.mp htm with h | h
            · rw [h]
              exact List.mem_map_of_mem _ (List.getElem_mem hi)
            · have := k2 t h
              rw [List.mem_reverse] at this
              obtain ⟨x, hx, e⟩ := List.mem_map.mp this
              exact List.mem_map.mpr ⟨x, List.mem_of_mem_take hx, e⟩)
        have := hfit _ (specDecode_lt cfg.s cfg.b addrs[i])
        simp only [List.length_cons] at hsub
        omega
      have hm2 : specDecode cfg.s cfg.b addrs[i]
          ∉ List.map (specDecode cfg.s cfg.b) (List.take i addrs) := by
        intro hm
        exact ht (k3 hlt _ (by simpa using hm))
      rw [lruStep_fill cfg _ _ ht hlt, if_neg hm2]
  · have h1 : (lruOutcomes cfg (fun _ => []) addrs)[i]? = none := by
      rw [List.getElem?_eq_none_iff, lruOutcomes_length]; omega
    have h2 : (coldOutcomes [] (addrs.map (specDecode cfg.s cfg.b)))[i]? = none := by
      rw [List.getElem?_eq_none_iff, coldOutcomes_length, List.length_map]; omega
    rw [h1, h2]

/-! ## Direct-mapped caches -/

theorem prevTag_append_singleton (set : Nat) (hist : List (Nat × Nat)) (d : Nat × Nat) :
    prevTag set (hist ++ [d]) = if d.1 = set then some d.2 else prevTag set hist := by
  by_cases h : d.1 = set
  · simp [prevTag, List.find?_cons, h]
  · simp [prevTag, List.find?_cons, h]

theorem lruAccess_one (p : Option Nat) (t : Nat) :
    lruAccess 1 p.toList t = (directMappedOutcome p t, [t]) := by
  cases p with
  | none => simp [lruAccess, directMappedOutcome]
  | some v =>
    by_cases h : t = v
    · subst h
      simp [lruAccess, directMappedOutcome]
    · have h2 : ¬ v = t := fun e => h e.symm
      simp [lruAccess, directMappedOutcome, h, h2]

theorem lruStep_directMapped (cfg : Config) (hE : cfg.E = 1) (ref : Nat → List Nat)
    (hist : List (Nat × Nat)) (a : Nat) (h : DirectMapped ref hist) :
    DirectMapped (lruStep cfg ref a).2 (hist ++ [specDecode cfg.s cfg.b a]) ∧
    (lruStep cfg ref a).1
      = directMappedOutcome (prevTag (specDecode cfg.s cfg.b a).1 hist)
          (specDecode cfg.s cfg.b a).2 := by
  have e := lruAccess_one (prevTag (specDecode cfg.s cfg.b a).1 hist)
    (specDecode cfg.s cfg.b a).2
  refine ⟨?_, ?_⟩
  · intro set
    rw [prevTag_append_singleton]
    by_cases hs : set = (specDecode cfg.s cfg.b a).1
    · simp only [lruStep, hs, if_true, hE, h (specDecode cfg.s cfg.b a).1, e]
      rfl
    · have hs2 : ¬ (specDecode cfg.s cfg.b a).1 = set := fun e => hs e.symm
      simp only [lruStep, hs, hs2, if_false]
      exact h set
  · simp only [lruStep, hE, h (specDecode cfg.s cfg.b a).1, e]

theorem lruRun_directMapped (cfg : Config) (hE : cfg.E = 1) (addrs : List Nat) :
    ∀ (ref : Nat → List Nat) (hist : List (Nat × Nat)), DirectMapped ref hist →
      DirectMapped (lruRun cfg ref addrs) (hist ++ addrs.map (specDecode cfg.s cfg.b)) := by
  induction addrs with
  | nil => intro ref hist h; simpa [lruRun] using h
  | cons a rest ih =>
    intro ref hist h
    have := ih _ _ (lruStep_directMapped cfg hE ref hist a h).1
    simpa [lruRun] using this

theorem DirectMapped_init : DirectMapped (fun _ => []) [] := by
  intro set
  rfl

theorem lruStep_miss_tally (cfg : Config) (hE : 1 ≤ cfg.E) (ref : Nat → List Nat) (a : Nat)
    (ht : (specDecode cfg.s cfg.b a).2 ∉ ref (specDecode cfg.s cfg.b a).1) :
    (lruStep cfg ref a).1.hits = 0 ∧ (lruStep cfg ref a).1.misses = 1 := by
  have h := lruStep_not_hit cfg hE ref a ht
  by_cases hlt : (ref (specDecode cfg.s cfg.b a).1).length < cfg.E
  · rw [if_pos hlt] at h
    rw [h]
    exact ⟨rfl, rfl⟩
  · rw [if_neg hlt] at h
    obtain ⟨v, _, hv⟩ := h
    rw [hv]
    exact ⟨rfl, rfl⟩

/-! ## Caches without lines -/

theorem accessData_inv (cfg : Config) (st : State) (ref : Nat → List Nat) (addr : Nat)
    (hsb : (2 : Int) ^ (cfg.s + cfg.b) ≤ INT_MAX) (hI : Inv cfg st ref) :
    ∃ st1 ref1, accessData cfg st addr = some st1 ∧ Inv cfg st1 ref1 := by
  by_cases hE : 1 ≤ cfg.E
  · obtain ⟨st1, h1, h2, _⟩ := accessData_step cfg st ref addr hE hsb hI
    exact ⟨st1, _, h1, h2⟩
  · have hE0 : cfg.E = 0 := by omega
    have hset := specDecode_lt cfg.s cfg.b addr
    obtain ⟨lines, hl, hR⟩ := hI.2 _ hset
    have hq := hR.length_le
    have hlen : lines.length = 0 := by rw [hR.1, hE0]
    have hnil : lines = [] := List.length_eq_zero.mp hlen
    rw [accessData_unfold cfg st addr hsb lines hl, hE0]
    simp only [scanLoop, decLoop, Option.map_some']
    refine ⟨_, _, rfl, Inv_update cfg st _ ref hI _ hset lines _ hR rfl⟩

theorem accessAll_inv (cfg : Config) (hsb : (2 : Int) ^ (cfg.s + cfg.b) ≤ INT_MAX)
    (addrs : List Nat) :
    ∀ (st : State) (ref : Nat → List Nat), Inv cfg st ref →
      ∃ st1 ref1, accessAll cfg st addrs = some st1 ∧ Inv cfg st1 ref1 := by
  induction addrs with
  | nil => intro st ref hI; exact ⟨st, ref, rfl, hI⟩
  | cons a rest ih =>
    intro st ref hI
    obtain ⟨st1, ref1, h1, h2⟩ := accessData_inv cfg st ref a hsb hI
    obtain ⟨st2, ref2, k1, k2⟩ := ih st1 ref1 h2
    exact ⟨st2, ref2, by simp [accessAll, h1, k1], k2⟩

theorem reachable_inv_any (cfg : Config) (hsb : (2 : Int) ^ (cfg.s + cfg.b) ≤ INT_MAX)
    (st : State) (h : Reachable cfg st) : ∃ ref, Inv cfg st ref := by
  obtain ⟨st0, addrs, h0, h1⟩ := h
  obtain ⟨st0b, k0, k1, _⟩ := initState_inv cfg (pow2_le_of_add _ _ hsb).1
  rw [h0] at k0
  cases k0
  obtain ⟨st1, ref1, m1, m2⟩ := accessAll_inv cfg hsb addrs st0 _ k1
  rw [h1] at m1
  cases m1
  exact ⟨_, m2⟩

/-! ## The frame of one access -/

theorem accessData_cache (cfg : Config) (st st1 : State) (addr : Nat)
    (h : accessData cfg st addr = some st1) :
    ∃ set tag lines2, decode cfg addr = some (set, tag) ∧
      st1.cache = st.cache.set set lines2 := by
  unfold accessData at h
  unfold decode
  cases hS : intPow2 cfg.s with
  | none => simp [hS] at h
  | some S =>
    cases hB : intPow2 cfg.b with
    | none => simp [hS, hB] at h
    | some B =>
      cases hM : intMul B S with
      | none => simp [hS, hB, hM] at h
      | some BS =>
        simp only [hS, hB, hM] at h ⊢
        cases hl : st.cache[addr / toULL B % toULL S]? with
        | none => simp [hl] at h
        | some lines =>
          simp only [hl] at h
          have key : ∃ lines2, st1.cache
              = st.cache.set (addr / toULL B % toULL S) lines2 := by
            repeat' split at h
            all_goals first
              | (obtain ⟨lines2, _, e⟩ := Option.map_eq_some'.mp h
                 exact ⟨lines2, by rw [← e]⟩)
              | cases h
          obtain ⟨lines2, e⟩ := key
          exact ⟨_, _, lines2, rfl, e⟩

theorem intPow2_some (e : Nat) (x : Int) (h : intPow2 e = some x) :
    x = (2 : Int) ^ e ∧ (2 : Int) ^ e ≤ INT_MAX := by
  unfold intPow2 at h
  split at h
  · rename_i hle
    exact ⟨(Option.some.inj h).symm, hle⟩
  · cases h

theorem decode_some_bound (cfg : Config) (addr : Nat) (d : Nat × Nat)
    (h : decode cfg addr = some d) : (2 : Int) ^ (cfg.s + cfg.b) ≤ INT_MAX := by
  unfold decode at h
  cases hS : intPow2 cfg.s with
  | none => simp [hS] at h
  | some S =>
    cases hB : intPow2 cfg.b with
    | none => simp [hS, hB] at h
    | some B =>
      cases hM : intMul B S with
      | none => simp [hS, hB, hM] at h
      | some BS =>
        obtain ⟨eS, _⟩ := intPow2_some _ _ hS
        obtain ⟨eB, _⟩ := intPow2_some _ _ hB
        unfold intMul at hM
        split at hM
        · rename_i hle
          rw [eS, eB] at hle
          have e : (2 : Int) ^ (cfg.s + cfg.b) = 2 ^ cfg.b * 2 ^ cfg.s := by rw [pow_add]; ring
          rw [e]
          exact hle.2
        · cases hM

theorem inv_shape (cfg : Config) (st : State) (ref : Nat → List Nat) (hI : Inv cfg st ref) :
    st.cache.length = 2 ^ cfg.s ∧ ∀ lines ∈ st.cache, lines.length = cfg.E := by
  refine ⟨hI.1, ?_⟩
  intro lines hl
  obtain ⟨q, hq⟩ := inv_mem cfg st ref hI lines hl
  exact hq.1

/-! ## The shape of one access -/

theorem scan_dec_found (p : cache_line_t → Bool) (upd : cache_line_t → cache_line_t)
    (E : Nat) (lines : cache_set_t) (hlen : lines.length = E)
    (hex : ∃ x ∈ lines, p x = true) :
    ∃ pre l post, lines = pre ++ l :: post ∧ (∀ x ∈ pre, p x = false) ∧ p l = true ∧
      scanLoop p upd lines E 0 = some (some (pre ++ upd l :: post, l.counter)) ∧
      decLoop (some l.counter) (pre ++ upd l :: post) E 0
        = some ((pre ++ upd l :: post).map (decLine l.counter)) := by
  obtain ⟨pre, l, post, e, hpre, hl⟩ := exists_first p lines hex
  subst e
  have hscan := scanLoop_found p upd l post hl pre [] hpre
  simp only [List.nil_append, List.length_nil] at hscan
  rw [hlen] at hscan
  have hdl := decLoop_eq l.counter (pre ++ upd l :: post) []
  simp only [List.nil_append, List.length_nil] at hdl
  have hlen2 : (pre ++ upd l :: post).length = E := by simpa using hlen
  rw [hlen2] at hdl
  exact ⟨pre, l, post, rfl, hpre, hl, hscan, hdl⟩

theorem scan_none_all (p : cache_line_t → Bool) (upd : cache_line_t → cache_line_t)
    (E : Nat) (lines : cache_set_t) (hlen : lines.length = E)
    (h : ∀ x ∈ lines, p x = false) : scanLoop p upd lines E 0 = some none := by
  have := scanLoop_none p upd lines [] h
  simpa [hlen] using this

theorem Rel.counter_bounds {E : Nat} {lines : cache_set_t} {q : List Nat}
    (h : Rel E lines q) (l : cache_line_t) (hl : l ∈ lines) :
    0 ≤ l.counter ∧ l.counter ≤ E := by
  have hq := h.length_le
  obtain ⟨_, _, hinv, hperm⟩ := h
  rcases hinv l hl with hv | ⟨_, h0⟩
  · have h1 : (l.tag, l.counter) ∈ validPairs lines :=
      (mem_validPairs _ _).mpr ⟨l, hl, hv, rfl⟩
    have := ranked_bounds q E _ (hperm.mem_iff.mp h1)
    simp only at this
    omega
  · rw [h0]; omega

theorem ranks_mem_lo (lo : Int) (k : Nat) : lo ∈ ranks lo (k + 1) := by
  induction k with
  | zero => simp [ranks_succ, ranks]
  | succ k ih =>
    rw [ranks_succ]
    exact List.mem_append_left _ ih

theorem Rel.exists_one {E : Nat} {lines : cache_set_t} {q : List Nat} (hE : 1 ≤ E)
    (h : Rel E lines q) (hall : ∀ x ∈ lines, x.valid = '1') :
    ∃ x ∈ lines, evictTest x = true := by
  have hc := h.counters
  have hlen : (validCounters lines).length = E := by
    rw [validCounters_eq, List.length_map, length_validPairs_of_all lines hall, h.1]
  rw [hlen] at hc
  have h1 : (1 : Int) ∈ ranks ((E : Int) - E + 1) E := by
    obtain ⟨k, rfl⟩ : ∃ k, E = k + 1 := ⟨E - 1, by omega⟩
    have e : ((k + 1 : Nat) : Int) - ((k + 1 : Nat) : Int) + 1 = 1 := by omega
    rw [e]
    exact ranks_mem_lo 1 k
  have h2 := hc.2.mem_iff.mpr h1
  simp only [validCounters, List.mem_map, List.mem_filter] at h2
  obtain ⟨x, ⟨hx, _⟩, hx1⟩ := h2
  exact ⟨x, hx, by simp [evictTest, hx1]⟩

/-- The three ways one `accessData` call can go on a state that satisfies the
invariant: the line `l` of the target set that is touched, the line `l2` it
becomes before the decrement loop, and the counters afterwards. -/
theorem accessData_shape (cfg : Config) (st : State) (ref : Nat → List Nat) (addr : Nat)
    (hE : 1 ≤ cfg.E) (hsb : (2 : Int) ^ (cfg.s + cfg.b) ≤ INT_MAX) (hI : Inv cfg st ref) :
    ∃ lines pre l post l2 st1,
      st.cache[(specDecode cfg.s cfg.b addr).1]? = some lines ∧
      lines = pre ++ l :: post ∧
      accessData cfg st addr = some st1 ∧
      st1.cache = st.cache.set (specDecode cfg.s cfg.b addr).1
        ((pre ++ l2 :: post).map (decLine l.counter)) ∧
      0 ≤ l.counter ∧ l.counter ≤ cfg.E ∧
      ((hitTest (specDecode cfg.s cfg.b addr).2 l = true ∧
          (∀ x ∈ pre, hitTest (specDecode cfg.s cfg.b addr).2 x = false) ∧
          l2 = hitUpd cfg.E l ∧
          st1.hit_cnt = st.hit_cnt + 1 ∧ st1.miss_cnt = st.miss_cnt ∧
          st1.evict_cnt = st.evict_cnt) ∨
        ((∀ x ∈ lines, hitTest (specDecode cfg.s cfg.b addr).2 x = false) ∧
          fillTest l = true ∧ (∀ x ∈ pre, fillTest x = false) ∧
          l2 = fillUpd cfg.E (specDecode cfg.s cfg.b addr).2 l ∧
          st1.hit_cnt = st.hit_cnt ∧ st1.miss_cnt = st.miss_cnt + 1 ∧
          st1.evict_cnt = st.evict_cnt) ∨
        ((∀ x ∈ lines, hitTest (specDecode cfg.s cfg.b addr).2 x = false) ∧
          (∀ x ∈ lines, fillTest x = false) ∧
          evictTest l = true ∧ (∀ x ∈ pre, evictTest x = false) ∧
          l2 = evictUpd cfg.E (specDecode cfg.s cfg.b addr).2 l ∧
          st1.hit_cnt = st.hit_cnt ∧ st1.miss_cnt = st.miss_cnt + 1 ∧
          st1.evict_cnt = st.evict_cnt + 1)) := by
  have hset := specDecode_lt cfg.s cfg.b addr
  obtain ⟨lines, hl, hR⟩ := hI.2 _ hset
  have hlen := hR.1
  rw [accessData_unfold cfg st addr hsb lines hl]
  by_cases hhit : ∃ x ∈ lines, hitTest (specDecode cfg.s cfg.b addr).2 x = true
  · obtain ⟨pre, l, post, e, hpre, hpl, hscan, hdec⟩ :=
      scan_dec_found (hitTest (specDecode cfg.s cfg.b addr).2) (hitUpd cfg.E) cfg.E lines
        hlen hhit
    have hb := hR.counter_bounds l (by rw [e]; simp)
    simp only [hscan, hdec, Option.map_some']
    exact ⟨lines, pre, l, post, _, _, hl, e, rfl, rfl, hb.1, hb.2,
      Or.inl ⟨hpl, hpre, rfl, rfl, rfl, rfl⟩⟩
  · have hnohit : ∀ x ∈ lines, hitTest (specDecode cfg.s cfg.b addr).2 x = false := by
      intro x hx
      by_contra hc
      exact hhit ⟨x, hx, by simpa using hc⟩
    have hs0 := scan_none_all (hitTest (specDecode cfg.s cfg.b addr).2) (hitUpd cfg.E)
      cfg.E lines hlen hnohit
    by_cases hfill : ∃ x ∈ lines, fillTest x = true
    · obtain ⟨pre, l, post, e, hpre, hpl, hscan, hdec⟩ :=
        scan_dec_found fillTest (fillUpd cfg.E (specDecode cfg.s cfg.b addr).2) cfg.E lines
          hlen hfill
      have hb := hR.counter_bounds l (by rw [e]; simp)
      simp only [hs0, hscan, hdec, Option.map_some']
      exact ⟨lines, pre, l, post, _, _, hl, e, rfl, rfl, hb.1, hb.2,
        Or.inr (Or.inl ⟨hnohit, hpl, hpre, rfl, rfl, rfl, rfl⟩)⟩
    · have hnofill : ∀ x ∈ lines, fillTest x = false := by
        intro x hx
        by_contra hc
        exact hfill ⟨x, hx, by simpa using hc⟩
      have hs1 := scan_none_all fillTest (fillUpd cfg.E (specDecode cfg.s cfg.b addr).2)
        cfg.E lines hlen hnofill
      have hall : ∀ x ∈ lines, x.valid = '1' := by
        intro x hx
        rcases hR.2.2.1 x hx with h1 | ⟨h1, _⟩
        · exact h1
        · have := hnofill x hx
          simp [fillTest, h1] at this
      obtain ⟨pre, l, post, e, hpre, hpl, hscan, hdec⟩ :=
        scan_dec_found evictTest (evictUpd cfg.E (specDecode cfg.s cfg.b addr).2) cfg.E lines
          hlen (hR.exists_one hE hall)
      have hb := hR.counter_bounds l (by rw [e]; simp)
      simp only [hs0, hs1, hscan, hdec, Option.map_some']
      exact ⟨lines, pre, l, post, _, _, hl, e, rfl, rfl, hb.1, hb.2,
        Or.inr (Or.inr ⟨hnohit, hnofill, hpl, hpre, rfl, rfl, rfl, rfl⟩)⟩

theorem map_valid_tag_decLine (prev : Int) (lines : List cache_line_t) :
    (lines.map (decLine prev)).map (fun l => (l.valid, l.tag))
      = lines.map (fun l => (l.valid, l.tag)) := by
  simp [decLine_valid, decLine_tag]

theorem hitTest_iff (t : Nat) (x : cache_line_t) :
    hitTest t x = true ↔ (x.valid = '1' ∧ x.tag = t) := by
  simp [hitTest]

theorem hitTest_false_iff (t : Nat) (x : cache_line_t) :
    hitTest t x = false ↔ ¬ (x.valid = '1' ∧ x.tag = t) := by
  rw [← hitTest_iff]
  simp

theorem fillTest_false_iff (x : cache_line_t) : fillTest x = false ↔ x.valid ≠ '0' := by
  simp [fillTest]

theorem getElem?_set_map_cons (cache : cache_t) (set : Nat) (lines new : cache_set_t)
    (h : cache[set]? = some lines) : (cache.set set new)[set]? = some new := by
  obtain ⟨A, B, e, hA⟩ := split_at cache set lines h
  rw [e, ← hA, set_append_cons, getElem?_append_cons]

theorem ranked_nodup (q : List Nat) (hq : q.Nodup) (top : Int) :
    ((ranked top q).map Prod.snd).Nodup := by
  have h1 : (ranked top q).Nodup := by
    apply List.Nodup.of_map Prod.fst
    rw [ranked_map_fst]
    exact hq
  exact List.Nodup.map_on (fun x hx y hy e => ranked_snd_unique q top x y hx hy e) h1

theorem Rel.counters_nodup {E : Nat} {lines : cache_set_t} {q : List Nat} (h : Rel E lines q) :
    (validCounters lines).Nodup := by
  obtain ⟨_, hnd, _, hperm⟩ := h
  rw [validCounters_eq]
  exact (hperm.map Prod.snd).nodup_iff.mpr (ranked_nodup q hnd E)

theorem lruStep_head (cfg : Config) (hE : 1 ≤ cfg.E) (ref : Nat → List Nat) (addr : Nat) :
    ((lruStep cfg ref addr).2 (specDecode cfg.s cfg.b addr).1).head?
      = some (specDecode cfg.s cfg.b addr).2 := by
  by_cases ht : (specDecode cfg.s cfg.b addr).2 ∈ ref (specDecode cfg.s cfg.b addr).1
  · rw [lruStep_hit cfg ref addr ht]; simp
  · by_cases hlt : (ref (specDecode cfg.s cfg.b addr).1).length < cfg.E
    · rw [lruStep_fill cfg ref addr ht hlt]; simp
    · cases hv : (ref (specDecode cfg.s cfg.b addr).1).getLast? with
      | none =>
        rw [List.getLast?_eq_none_iff] at hv
        rw [hv] at hlt
        simp at hlt
        omega
      | some v => rw [lruStep_evict cfg ref addr v ht hlt hv]; simp

theorem lruStep_other (cfg : Config) (ref : Nat → List Nat) (addr set : Nat)
    (h : set ≠ (specDecode cfg.s cfg.b addr).1) : (lruStep cfg ref addr).2 set = ref set := by
  simp [lruStep, h]

theorem lruRun_head (cfg : Config) (hE : 1 ≤ cfg.E) (addrs : List Nat) :
    ∀ (ref : Nat → List Nat) (hist : List (Nat × Nat)),
      (∀ set, (ref set).head? = prevTag set hist) →
      ∀ set, (lruRun cfg ref addrs set).head?
        = prevTag set (hist ++ addrs.map (specDecode cfg.s cfg.b)) := by
  induction addrs with
  | nil => intro ref hist h set; simpa [lruRun] using h set
  | cons a rest ih =>
    intro ref hist h set
    have hstep : ∀ set2, ((lruStep cfg ref a).2 set2).head?
        = prevTag set2 (hist ++ [specDecode cfg.s cfg.b a]) := by
      intro set2
      rw [prevTag_append_singleton]
      by_cases hs : (specDecode cfg.s cfg.b a).1 = set2
      · rw [if_pos hs, ← hs]
        exact lruStep_head cfg hE ref a
      · rw [if_neg hs, lruStep_other cfg ref a set2 (fun e => hs e.symm)]
        exact h set2
    have := ih _ _ hstep set
    simpa [lruRun] using this

/-! ## Main results -/

/-- C1. For every `E ≥ 1` and every `s`, `b` with `2^(s+b)` representable as an
`int`, replaying any sequence of addresses with `accessData` from the freshly
initialised cache succeeds, and the outcome of each access (hit, miss without
eviction, miss with eviction and the overwritten tag) is the outcome of the
true-LRU reference cache on the same sequence. -/
theorem accessData_refines_true_lru (cfg : Config) (addrs : List Nat) (hE : 1 ≤ cfg.E)
    (hsb : (2 : Int) ^ (cfg.s + cfg.b) ≤ INT_MAX) :
    ∃ st0, initState cfg = some st0 ∧
      outcomesFrom cfg st0 addrs = some (lruOutcomes cfg (fun _ => []) addrs) := by
  obtain ⟨st0, h0, h1, _⟩ := initState_inv cfg (pow2_le_of_add _ _ hsb).1
  obtain ⟨st1, _, _, h3, _⟩ := accessAll_sim cfg hE hsb addrs st0 _ h1
  exact ⟨st0, h0, h3⟩

theorem accessData_refines_true_lru_witness :
    1 ≤ (Config.mk 1 2 1).E ∧ (2 : Int) ^ ((Config.mk 1 2 1).s + (Config.mk 1 2 1).b) ≤ INT_MAX ∧
    ∃ st0, initState (Config.mk 1 2 1) = some st0 ∧
      outcomesFrom (Config.mk 1 2 1) st0 [0, 8, 16, 0]
        = some (lruOutcomes (Config.mk 1 2 1) (fun _ => []) [0, 8, 16, 0]) :=
  ⟨by decide, by decide,
    accessData_refines_true_lru (Config.mk 1 2 1) [0, 8, 16, 0] (by decide) (by decide)⟩

/-- C2, as stated, fails: with `s = 1`, `E = 2`, `b = 1`, after the single access
to address 0 the only valid line of set 0 has counter 2, while `{1, ..., k}` with
`k = 1` valid line is `{1}`. -/
theorem valid_counters_not_from_one :
    (initState (Config.mk 1 2 1)).bind (fun st0 => accessData (Config.mk 1 2 1) st0 0)
      = some { cache := [[⟨'1', 0, 2⟩, ⟨'0', 0, 0⟩], [⟨'0', 0, 0⟩, ⟨'0', 0, 0⟩]],
               hit_cnt := 0, miss_cnt := 1, evict_cnt := 0 } ∧
    validCounters [⟨'1', 0, 2⟩, ⟨'0', 0, 0⟩] = [2] ∧
    ¬ (validCounters [⟨'1', 0, 2⟩, ⟨'0', 0, 0⟩]).Perm
        (ranks 1 (validCounters [⟨'1', 0, 2⟩, ⟨'0', 0, 0⟩]).length) := by
  decide

/-- C2, amended. After every `accessData` call on a state reached from
`initCache` (`E ≥ 1`), in every set the recency counters of the valid lines are
exactly the values `E - k + 1, ..., E`, each once, where `k ≤ E` is the number of
valid lines of the set. -/
theorem valid_counters_top_ranks (cfg : Config) (st : State) (addr : Nat) (hE : 1 ≤ cfg.E)
    (hsb : (2 : Int) ^ (cfg.s + cfg.b) ≤ INT_MAX) (hst : Reachable cfg st) :
    ∃ st1, accessData cfg st addr = some st1 ∧
      ∀ lines ∈ st1.cache,
        (validCounters lines).length ≤ cfg.E ∧
        (validCounters lines).Perm
          (ranks ((cfg.E : Int) - (validCounters lines).length + 1)
            (validCounters lines).length) := by
  obtain ⟨ref, hI⟩ := reachable_inv cfg hE hsb st hst
  obtain ⟨st1, h1, h2, _⟩ := accessData_step cfg st ref addr hE hsb hI
  refine ⟨st1, h1, ?_⟩
  intro lines hl
  obtain ⟨q, hq⟩ := inv_mem cfg st1 _ h2 lines hl
  exact hq.counters

theorem valid_counters_top_ranks_witness :
    1 ≤ (Config.mk 1 2 1).E ∧ (2 : Int) ^ ((Config.mk 1 2 1).s + (Config.mk 1 2 1).b) ≤ INT_MAX ∧
    Reachable (Config.mk 1 2 1)
      { cache := [[⟨'0', 0, 0⟩, ⟨'0', 0, 0⟩], [⟨'0', 0, 0⟩, ⟨'0', 0, 0⟩]],
        hit_cnt := 0, miss_cnt := 0, evict_cnt := 0 } ∧
    ∃ st1, accessData (Config.mk 1 2 1)
        { cache := [[⟨'0', 0, 0⟩, ⟨'0', 0, 0⟩], [⟨'0', 0, 0⟩, ⟨'0', 0, 0⟩]],
          hit_cnt := 0, miss_cnt := 0, evict_cnt := 0 } 0 = some st1 ∧
      ∀ lines ∈ st1.cache,
        (validCounters lines).length ≤ (Config.mk 1 2 1).E ∧
        (validCounters lines).Perm
          (ranks (((Config.mk 1 2 1).E : Int) - (validCounters lines).length + 1)
            (validCounters lines).length) :=
  ⟨by decide, by decide, ⟨State.mk [[⟨'0', 0, 0⟩, ⟨'0', 0, 0⟩], [⟨'0', 0, 0⟩, ⟨'0', 0, 0⟩]] 0 0 0, [], by decide, rfl⟩,
    valid_counters_top_ranks (Config.mk 1 2 1) _ 0 (by decide) (by decide)
      ⟨State.mk [[⟨'0', 0, 0⟩, ⟨'0', 0, 0⟩], [⟨'0', 0, 0⟩, ⟨'0', 0, 0⟩]] 0 0 0, [], by decide, rfl⟩⟩

/-- C3. After every `accessData` call on a state reached from `initCache`, no
set contains two valid lines with the same tag. The call is defined when
`2^(s+b)` is representable as an `int`. -/
theorem valid_tags_distinct (cfg : Config) (st : State) (addr : Nat)
    (hsb : (2 : Int) ^ (cfg.s + cfg.b) ≤ INT_MAX) (hst : Reachable cfg st) :
    ∃ st1, accessData cfg st addr = some st1 ∧
      ∀ lines ∈ st1.cache, (validTags lines).Nodup := by
  obtain ⟨ref, hI⟩ := reachable_inv_any cfg hsb st hst
  obtain ⟨st1, ref1, h1, h2⟩ := accessData_inv cfg st ref addr hsb hI
  refine ⟨st1, h1, ?_⟩
  intro lines hl
  obtain ⟨q, hq⟩ := inv_mem cfg st1 _ h2 lines hl
  exact hq.tags

theorem valid_tags_distinct_witness :
    (2 : Int) ^ ((Config.mk 1 2 1).s + (Config.mk 1 2 1).b) ≤ INT_MAX ∧
    Reachable (Config.mk 1 2 1)
      { cache := [[⟨'1', 0, 2⟩, ⟨'0', 0, 0⟩], [⟨'0', 0, 0⟩, ⟨'0', 0, 0⟩]],
        hit_cnt := 0, miss_cnt := 1, evict_cnt := 0 } ∧
    ∃ st1, accessData (Config.mk 1 2 1)
        { cache := [[⟨'1', 0, 2⟩, ⟨'0', 0, 0⟩], [⟨'0', 0, 0⟩, ⟨'0', 0, 0⟩]],
          hit_cnt := 0, miss_cnt := 1, evict_cnt := 0 } 8 = some st1 ∧
      ∀ lines ∈ st1.cache, (validTags lines).Nodup :=
  ⟨by decide, ⟨State.mk [[⟨'0', 0, 0⟩, ⟨'0', 0, 0⟩], [⟨'0', 0, 0⟩, ⟨'0', 0, 0⟩]] 0 0 0, [0], by decide, by decide⟩,
    valid_tags_distinct (Config.mk 1 2 1) _ 8 (by decide)
      ⟨State.mk [[⟨'0', 0, 0⟩, ⟨'0', 0, 0⟩], [⟨'0', 0, 0⟩, ⟨'0', 0, 0⟩]] 0 0 0, [0], by decide, by decide⟩⟩

/-- C4. For every trace replayed on the fresh cache with zeroed counters
(`E ≥ 1`), the replay succeeds and the final counters satisfy
`evict_cnt ≤ miss_cnt` and
`hit_cnt + miss_cnt = #L + #S + 2 * #M`. -/
theorem counters_account_for_accesses (cfg : Config) (tr : List TraceEntry) (hE : 1 ≤ cfg.E)
    (hsb : (2 : Int) ^ (cfg.s + cfg.b) ≤ INT_MAX) :
    ∃ st0 st, initState cfg = some st0 ∧ replayTrace cfg st0 tr = some st ∧
      st.evict_cnt ≤ st.miss_cnt ∧
      st.hit_cnt + st.miss_cnt
        = (tr.countP fun e => decide (e.op = 'L')) + (tr.countP fun e => decide (e.op = 'S'))
          + 2 * (tr.countP fun e => decide (e.op = 'M')) := by
  obtain ⟨st0, h0, h1, c1, c2, c3⟩ := initState_inv cfg (pow2_le_of_add _ _ hsb).1
  obtain ⟨st1, k1, _, _, k4, k5, k6⟩ := accessAll_sim cfg hE hsb (traceAccesses tr) st0 _ h1
  have ht := outcomes_tally (lruOutcomes cfg (fun _ => []) (traceAccesses tr))
  rw [lruOutcomes_length] at ht
  refine ⟨st0, st1, h0, by rw [replayTrace_eq_accessAll]; exact k1, by omega, ?_⟩
  rw [← traceAccesses_length]
  omega

theorem counters_account_for_accesses_witness :
    1 ≤ (Config.mk 1 2 1).E ∧ (2 : Int) ^ ((Config.mk 1 2 1).s + (Config.mk 1 2 1).b) ≤ INT_MAX ∧
    ∃ st0 st, initState (Config.mk 1 2 1) = some st0 ∧
      replayTrace (Config.mk 1 2 1) st0 [⟨'L', 0⟩, ⟨'I', 4⟩, ⟨'M', 8⟩, ⟨'S', 16⟩] = some st ∧
      st.evict_cnt ≤ st.miss_cnt ∧
      st.hit_cnt + st.miss_cnt
        = (List.countP (fun e => decide (e.op = 'L'))
            [(⟨'L', 0⟩ : TraceEntry), ⟨'I', 4⟩, ⟨'M', 8⟩, ⟨'S', 16⟩])
          + (List.countP (fun e => decide (e.op = 'S'))
            [(⟨'L', 0⟩ : TraceEntry), ⟨'I', 4⟩, ⟨'M', 8⟩, ⟨'S', 16⟩])
          + 2 * (List.countP (fun e => decide (e.op = 'M'))
            [(⟨'L', 0⟩ : TraceEntry), ⟨'I', 4⟩, ⟨'M', 8⟩, ⟨'S', 16⟩]) :=
  ⟨by decide, by decide,
    counters_account_for_accesses (Config.mk 1 2 1) _ (by decide) (by decide)⟩

/-- C7. For every state reachable from `initCache` with `E ≥ 1` (`E = 1`
included) and every address `a`, two `accessData(a)` calls in a row, as a
Modify line makes them, both succeed and the second is a hit: it increments
`hit_cnt` by one and leaves `miss_cnt` and `evict_cnt` unchanged. -/
theorem second_access_hits (cfg : Config) (st : State) (a : Nat) (hE : 1 ≤ cfg.E)
    (hsb : (2 : Int) ^ (cfg.s + cfg.b) ≤ INT_MAX) (hst : Reachable cfg st) :
    ∃ st1 st2, accessData cfg st a = some st1 ∧ accessData cfg st1 a = some st2 ∧
      replayEntry cfg st ⟨'M', a⟩ = some st2 ∧
      st2.hit_cnt = st1.hit_cnt + 1 ∧ st2.miss_cnt = st1.miss_cnt ∧
      st2.evict_cnt = st1.evict_cnt := by
  obtain ⟨ref, hI⟩ := reachable_inv cfg hE hsb st hst
  obtain ⟨st1, h1, h2, _⟩ := accessData_step cfg st ref a hE hsb hI
  obtain ⟨st2, k1, _, _, k4, k5, k6⟩ := accessData_step cfg st1 _ a hE hsb h2
  rw [lruStep_hit cfg _ a (lruStep_mem cfg hE ref a)] at k4 k5 k6
  refine ⟨st1, st2, h1, k1, ?_, by simpa [Outcome.hits] using k4,
    by simpa [Outcome.misses] using k5, by simpa [Outcome.evictions] using k6⟩
  rw [replayEntry_eq]
  simp [traceAccesses, accessAll, h1, k1]

theorem second_access_hits_witness :
    1 ≤ (Config.mk 1 1 1).E ∧ (2 : Int) ^ ((Config.mk 1 1 1).s + (Config.mk 1 1 1).b) ≤ INT_MAX ∧
    Reachable (Config.mk 1 1 1)
      { cache := [[⟨'1', 0, 1⟩], [⟨'0', 0, 0⟩]], hit_cnt := 0, miss_cnt := 1, evict_cnt := 0 } ∧
    ∃ st1 st2,
      accessData (Config.mk 1 1 1)
        { cache := [[⟨'1', 0, 1⟩], [⟨'0', 0, 0⟩]], hit_cnt := 0, miss_cnt := 1, evict_cnt := 0 }
        4 = some st1 ∧
      accessData (Config.mk 1 1 1) st1 4 = some st2 ∧
      replayEntry (Config.mk 1 1 1)
        { cache := [[⟨'1', 0, 1⟩], [⟨'0', 0, 0⟩]], hit_cnt := 0, miss_cnt := 1, evict_cnt := 0 }
        ⟨'M', 4⟩ = some st2 ∧
      st2.hit_cnt = st1.hit_cnt + 1 ∧ st2.miss_cnt = st1.miss_cnt ∧
      st2.evict_cnt = st1.evict_cnt :=
  ⟨by decide, by decide, ⟨State.mk [[⟨'0', 0, 0⟩], [⟨'0', 0, 0⟩]] 0 0 0, [0], by decide, by decide⟩,
    second_access_hits (Config.mk 1 1 1) _ 4 (by decide) (by decide)
      ⟨State.mk [[⟨'0', 0, 0⟩], [⟨'0', 0, 0⟩]] 0 0 0, [0], by decide, by decide⟩⟩

/-- C10. For every address and every `s`, `b` for which the `int` product
`B * S = 2^b * 2^s` does not overflow (so that `B = 2^b` and `S = 2^s` do not
overflow either), the set and tag that `accessData` computes, `(addr / B) % S`
and `addr / (B * S)`, are `(addr >> b) mod 2^s` and `(addr >> b) div 2^s`. -/
theorem decode_eq_shift (s E b addr : Nat)
    (hBS : (2 : Int) ^ b * (2 : Int) ^ s ≤ INT_MAX) :
    decode (Config.mk s E b) addr = some ((addr >>> b) % 2 ^ s, (addr >>> b) / 2 ^ s) := by
  have h : (2 : Int) ^ ((Config.mk s E b).s + (Config.mk s E b).b) ≤ INT_MAX := by
    have e : (2 : Int) ^ (s + b) = 2 ^ b * 2 ^ s := by rw [pow_add]; ring
    simpa [e] using hBS
  exact decode_eq (Config.mk s E b) addr h

theorem decode_eq_shift_witness :
    (2 : Int) ^ 3 * (2 : Int) ^ 4 ≤ INT_MAX ∧
    decode (Config.mk 4 2 3) 12345678 = some ((12345678 >>> 3) % 2 ^ 4, (12345678 >>> 3) / 2 ^ 4) :=
  ⟨by decide, decode_eq_shift 4 2 3 12345678 (by decide)⟩

/-- C6, as stated, fails twice over. With `s = 1`, `E = 1`, `b = 1` and the
addresses 0, 1, 4: the first access to address 1 is a hit (address 0 brought its
block in), and the first access to address 4 is a miss that evicts tag 0. -/
theorem first_access_may_hit_or_evict :
    (initState (Config.mk 1 1 1)).bind
        (fun st0 => outcomesFrom (Config.mk 1 1 1) st0 [0, 1, 4])
      = some [Outcome.miss, Outcome.hit, Outcome.evict 0] := by
  decide

/-- C6, amended. For every trace replayed on a fresh cache (`E ≥ 1`), an access
to a block, that is a (set, tag) pair, that no earlier access of the trace
touched is a miss; it causes no eviction when fewer than `E` distinct tags were
accessed earlier in its set, and it evicts otherwise. -/
theorem first_access_to_block_misses (cfg : Config) (tr : List TraceEntry) (hE : 1 ≤ cfg.E)
    (hsb : (2 : Int) ^ (cfg.s + cfg.b) ≤ INT_MAX) :
    ∃ st0 os, initState cfg = some st0 ∧
      outcomesFrom cfg st0 (traceAccesses tr) = some os ∧
      ∀ (i : Nat) (hi : i < (traceAccesses tr).length) (set tag : Nat),
        decode cfg (traceAccesses tr)[i] = some (set, tag) →
        (set, tag) ∉ blocksOf cfg ((traceAccesses tr).take i) →
        (if (tagsIn set (blocksOf cfg ((traceAccesses tr).take i))).dedup.length < cfg.E
          then os[i]? = some Outcome.miss
          else ∃ v, os[i]? = some (Outcome.evict v)) := by
  obtain ⟨st0, h0, h1, _⟩ := initState_inv cfg (pow2_le_of_add _ _ hsb).1
  obtain ⟨st1, _, _, h3, _⟩ := accessAll_sim cfg hE hsb (traceAccesses tr) st0 _ h1
  refine ⟨st0, _, h0, h3, ?_⟩
  intro i hi set tag hd hnew
  rw [decode_eq cfg _ hsb, Option.some.injEq] at hd
  rw [blocksOf_eq cfg hsb] at hnew ⊢
  have hH := hist_at cfg hE (traceAccesses tr) i
  have hset : (specDecode cfg.s cfg.b (traceAccesses tr)[i]).1 = set := congrArg Prod.fst hd
  have htag : (specDecode cfg.s cfg.b (traceAccesses tr)[i]).2 = tag := congrArg Prod.snd hd
  have hnot : (specDecode cfg.s cfg.b (traceAccesses tr)[i]).2 ∉
      lruRun cfg (fun _ => []) ((traceAccesses tr).take i)
        (specDecode cfg.s cfg.b (traceAccesses tr)[i]).1 := by
    intro hm
    have := (hH _).2.1 _ hm
    rw [hset, htag] at this
    exact hnew (by simpa using this)
  have hiff := hist_length_lt_iff cfg.E _ _ hH set
  rw [tagsIn_dedup_length_reverse] at hiff
  have hstep := lruStep_not_hit cfg hE _ _ hnot
  rw [hset] at hstep
  rw [lruOutcomes_getElem cfg _ _ i hi]
  by_cases hlt : (tagsIn set (List.map (specDecode cfg.s cfg.b)
      ((traceAccesses tr).take i))).dedup.length < cfg.E
  · rw [if_pos hlt]
    rw [if_pos (hiff.mpr hlt)] at hstep
    rw [hstep]
  · rw [if_neg hlt]
    rw [if_neg (fun h => hlt (hiff.mp h))] at hstep
    obtain ⟨v, _, hv⟩ := hstep
    exact ⟨v, by rw [hv]⟩

theorem first_access_to_block_misses_witness :
    1 ≤ (Config.mk 1 1 1).E ∧ (2 : Int) ^ ((Config.mk 1 1 1).s + (Config.mk 1 1 1).b) ≤ INT_MAX ∧
    ∃ st0 os, initState (Config.mk 1 1 1) = some st0 ∧
      outcomesFrom (Config.mk 1 1 1) st0
        (traceAccesses [⟨'L', 0⟩, ⟨'S', 1⟩, ⟨'L', 4⟩]) = some os ∧
      ∀ (i : Nat) (hi : i < (traceAccesses [⟨'L', 0⟩, ⟨'S', 1⟩, ⟨'L', 4⟩]).length)
        (set tag : Nat),
        decode (Config.mk 1 1 1) (traceAccesses [⟨'L', 0⟩, ⟨'S', 1⟩, ⟨'L', 4⟩])[i]
          = some (set, tag) →
        (set, tag) ∉ blocksOf (Config.mk 1 1 1)
          ((traceAccesses [⟨'L', 0⟩, ⟨'S', 1⟩, ⟨'L', 4⟩]).take i) →
        (if (tagsIn set (blocksOf (Config.mk 1 1 1)
            ((traceAccesses [⟨'L', 0⟩, ⟨'S', 1⟩, ⟨'L', 4⟩]).take i))).dedup.length
              < (Config.mk 1 1 1).E
          then os[i]? = some Outcome.miss
          else ∃ v, os[i]? = some (Outcome.evict v)) :=
  ⟨by decide, by decide,
    first_access_to_block_misses (Config.mk 1 1 1) [⟨'L', 0⟩, ⟨'S', 1⟩, ⟨'L', 4⟩]
      (by decide) (by decide)⟩

/-- C5. For every trace replayed on a fresh cache, if for each set the number of
distinct tags that the trace maps to that set is at most `E`, then the replay
succeeds, no access evicts (`evict_cnt` stays 0), an access is a hit exactly when
the same (set, tag) block was accessed earlier in the trace, and `miss_cnt`
equals the number of distinct blocks touched. -/
theorem no_eviction_when_tags_fit (cfg : Config) (tr : List TraceEntry)
    (hsb : (2 : Int) ^ (cfg.s + cfg.b) ≤ INT_MAX)
    (hfit : ∀ set, set < 2 ^ cfg.s →
      (tagsIn set (blocksOf cfg (traceAccesses tr))).dedup.length ≤ cfg.E) :
    ∃ st0 st os, initState cfg = some st0 ∧ replayTrace cfg st0 tr = some st ∧
      outcomesFrom cfg st0 (traceAccesses tr) = some os ∧
      st.evict_cnt = 0 ∧
      st.miss_cnt = (blocksOf cfg (traceAccesses tr)).dedup.length ∧
      ∀ (i : Nat) (hi : i < (traceAccesses tr).length),
        os[i]? = some (if decode cfg (traceAccesses tr)[i]
            ∈ ((traceAccesses tr).take i).map (decode cfg)
          then Outcome.hit else Outcome.miss) := by
  obtain ⟨st0, h0, h1, c1, c2, c3⟩ := initState_inv cfg (pow2_le_of_add _ _ hsb).1
  rw [blocksOf_eq cfg hsb] at hfit ⊢
  cases hta : traceAccesses tr with
  | nil =>
    refine ⟨st0, st0, [], h0, ?_, rfl, c3, ?_, ?_⟩
    · rw [replayTrace_eq_accessAll, hta]; rfl
    · rw [c2]; rfl
    · intro i hi; simp at hi
  | cons a rest =>
    rw [← hta]
    have hE : 1 ≤ cfg.E := by
      have hmem : (specDecode cfg.s cfg.b a).2 ∈ (tagsIn (specDecode cfg.s cfg.b a).1
          (List.map (specDecode cfg.s cfg.b) (traceAccesses tr))).dedup := by
        rw [List.mem_dedup, mem_tagsIn, hta]
        simp
      have := List.length_pos_of_mem hmem
      have := hfit _ (specDecode_lt cfg.s cfg.b a)
      omega
    obtain ⟨st1, k1, _, k3, _, k5, k6⟩ :=
      accessAll_sim cfg hE hsb (traceAccesses tr) st0 _ h1
    have hcold := lruOutcomes_cold cfg hE (traceAccesses tr) hfit
    rw [hcold] at k3 k5 k6
    refine ⟨st0, st1, _, h0, by rw [replayTrace_eq_accessAll]; exact k1, k3, ?_, ?_, ?_⟩
    · rw [k6, c3, coldOutcomes_evictions]; rfl
    · have := coldOutcomes_misses (List.map (specDecode cfg.s cfg.b) (traceAccesses tr)) []
      simp only [List.dedup_nil, List.length_nil, Nat.cast_zero, zero_add,
        List.append_nil] at this
      rw [k5, c2, this, dedup_length_reverse]
      simp
    · intro i hi
      have hi2 : i < (List.map (specDecode cfg.s cfg.b) (traceAccesses tr)).length := by
        simpa using hi
      rw [coldOutcomes_getElem _ [] i hi2, decode_eq cfg _ hsb, map_decode_eq cfg hsb]
      have hmem : some (specDecode cfg.s cfg.b (traceAccesses tr)[i]) ∈
            List.take i (List.map some (List.map (specDecode cfg.s cfg.b) (traceAccesses tr)))
          ↔ specDecode cfg.s cfg.b (traceAccesses tr)[i] ∈
            List.take i (List.map (specDecode cfg.s cfg.b) (traceAccesses tr)) := by
        rw [← List.map_take]
        exact List.mem_map_of_injective (Option.some_injective _)
      simp only [List.not_mem_nil, false_or, List.getElem_map, List.map_take, hmem]

theorem no_eviction_when_tags_fit_witness :
    (2 : Int) ^ ((Config.mk 1 2 0).s + (Config.mk 1 2 0).b) ≤ INT_MAX ∧
    (∀ set, set < 2 ^ (Config.mk 1 2 0).s →
      (tagsIn set (blocksOf (Config.mk 1 2 0)
        (traceAccesses [⟨'L', 0⟩, ⟨'L', 4⟩, ⟨'L', 0⟩]))).dedup.length ≤ (Config.mk 1 2 0).E) ∧
    ((initState (Config.mk 1 2 0)).bind fun st0 =>
      (replayTrace (Config.mk 1 2 0) st0 [⟨'L', 0⟩, ⟨'L', 4⟩, ⟨'L', 0⟩]).map fun st =>
        (st.hit_cnt, st.miss_cnt, st.evict_cnt)) = some (1, 2, 0) ∧
    ∃ st0 st os, initState (Config.mk 1 2 0) = some st0 ∧
      replayTrace (Config.mk 1 2 0) st0 [⟨'L', 0⟩, ⟨'L', 4⟩, ⟨'L', 0⟩] = some st ∧
      outcomesFrom (Config.mk 1 2 0) st0 (traceAccesses [⟨'L', 0⟩, ⟨'L', 4⟩, ⟨'L', 0⟩])
        = some os ∧
      st.evict_cnt = 0 ∧
      st.miss_cnt = (blocksOf (Config.mk 1 2 0)
        (traceAccesses [⟨'L', 0⟩, ⟨'L', 4⟩, ⟨'L', 0⟩])).dedup.length ∧
      ∀ (i : Nat) (hi : i < (traceAccesses [⟨'L', 0⟩, ⟨'L', 4⟩, ⟨'L', 0⟩]).length),
        os[i]? = some (if decode (Config.mk 1 2 0)
              (traceAccesses [⟨'L', 0⟩, ⟨'L', 4⟩, ⟨'L', 0⟩])[i]
            ∈ ((traceAccesses [⟨'L', 0⟩, ⟨'L', 4⟩, ⟨'L', 0⟩]).take i).map
              (decode (Config.mk 1 2 0))
          then Outcome.hit else Outcome.miss) :=
  ⟨by decide, by decide, by decide,
    no_eviction_when_tags_fit (Config.mk 1 2 0) [⟨'L', 0⟩, ⟨'L', 4⟩, ⟨'L', 0⟩]
      (by decide) (by decide)⟩

/-- C8, as stated, fails. With `s = 1`, `E = 1`, `b = 1`, after the trace `L 0`
the counters are hits 0, misses 1; the Modify of address 1, an address that does
not occur earlier, then gives hits 2, misses 1: two hits and no miss, because
address 1 lies in the block that address 0 brought in. -/
theorem modify_unseen_address_may_hit_twice :
    1 ∉ traceAccesses [⟨'L', 0⟩] ∧
    ((initState (Config.mk 1 1 1)).bind fun st0 =>
      (replayTrace (Config.mk 1 1 1) st0 [⟨'L', 0⟩]).map fun st =>
        (st.hit_cnt, st.miss_cnt, st.evict_cnt)) = some (0, 1, 0) ∧
    ((initState (Config.mk 1 1 1)).bind fun st0 =>
      (replayTrace (Config.mk 1 1 1) st0 [⟨'L', 0⟩, ⟨'M', 1⟩]).map fun st =>
        (st.hit_cnt, st.miss_cnt, st.evict_cnt)) = some (2, 1, 0) := by
  decide

/-- C8, amended. For every state reached by replaying a trace on a fresh cache
(`E ≥ 1`) and every address whose block, its (set, tag) pair, was not accessed
earlier in that trace, a single Modify entry to that address succeeds and
increases `miss_cnt` by exactly one and `hit_cnt` by exactly one. -/
theorem modify_new_block (cfg : Config) (tr : List TraceEntry) (a : Nat) (hE : 1 ≤ cfg.E)
    (hsb : (2 : Int) ^ (cfg.s + cfg.b) ≤ INT_MAX)
    (hnew : decode cfg a ∉ (traceAccesses tr).map (decode cfg)) :
    ∃ st0 st st2, initState cfg = some st0 ∧ replayTrace cfg st0 tr = some st ∧
      replayEntry cfg st ⟨'M', a⟩ = some st2 ∧
      st2.miss_cnt = st.miss_cnt + 1 ∧ st2.hit_cnt = st.hit_cnt + 1 := by
  obtain ⟨st0, h0, h1, _⟩ := initState_inv cfg (pow2_le_of_add _ _ hsb).1
  obtain ⟨st, k1, k2, _⟩ := accessAll_sim cfg hE hsb (traceAccesses tr) st0 _ h1
  have hH := lruRun_hist cfg hE (traceAccesses tr) _ _ (Hist_init cfg.E)
  have hnot : (specDecode cfg.s cfg.b a).2 ∉
      lruRun cfg (fun _ => []) (traceAccesses tr) (specDecode cfg.s cfg.b a).1 := by
    intro hm
    have h2 := (hH _).2.1 _ hm
    apply hnew
    rw [decode_eq cfg a hsb, map_decode_eq cfg hsb]
    apply List.mem_map_of_mem
    simpa using h2
  obtain ⟨st1, m1, m2, _, m4, m5, _⟩ := accessData_step cfg st _ a hE hsb k2
  obtain ⟨st2, n1, _, _, n4, n5, _⟩ := accessData_step cfg st1 _ a hE hsb m2
  rw [lruStep_hit cfg _ a (lruStep_mem cfg hE _ a)] at n4 n5
  obtain ⟨t1, t2⟩ := lruStep_miss_tally cfg hE _ a hnot
  rw [t1] at m4
  rw [t2] at m5
  simp only [Outcome.hits, Outcome.misses] at n4 n5
  refine ⟨st0, st, st2, h0, by rw [replayTrace_eq_accessAll]; exact k1, ?_, by omega, by omega⟩
  rw [replayEntry_eq]
  simp [traceAccesses, accessAll, m1, n1]

theorem modify_new_block_witness :
    1 ≤ (Config.mk 1 1 1).E ∧ (2 : Int) ^ ((Config.mk 1 1 1).s + (Config.mk 1 1 1).b) ≤ INT_MAX ∧
    decode (Config.mk 1 1 1) 4 ∉ (traceAccesses [⟨'L', 0⟩]).map (decode (Config.mk 1 1 1)) ∧
    ∃ st0 st st2, initState (Config.mk 1 1 1) = some st0 ∧
      replayTrace (Config.mk 1 1 1) st0 [⟨'L', 0⟩] = some st ∧
      replayEntry (Config.mk 1 1 1) st ⟨'M', 4⟩ = some st2 ∧
      st2.miss_cnt = st.miss_cnt + 1 ∧ st2.hit_cnt = st.hit_cnt + 1 :=
  ⟨by decide, by decide, by decide,
    modify_new_block (Config.mk 1 1 1) [⟨'L', 0⟩] 4 (by decide) (by decide) (by decide)⟩

/-- C9. For a direct-mapped cache (`E = 1`) replayed from a fresh state, every
access succeeds; it is a hit exactly when the previous access to the same set
carried the same tag, every other access is a miss, and the miss evicts (the tag
of that previous access) exactly when the set was accessed before. -/
theorem direct_mapped_outcomes (cfg : Config) (tr : List TraceEntry) (hE : cfg.E = 1)
    (hsb : (2 : Int) ^ (cfg.s + cfg.b) ≤ INT_MAX) :
    ∃ st0 os, initState cfg = some st0 ∧
      outcomesFrom cfg st0 (traceAccesses tr) = some os ∧
      ∀ (i : Nat) (hi : i < (traceAccesses tr).length) (set tag : Nat),
        decode cfg (traceAccesses tr)[i] = some (set, tag) →
        os[i]? = some (directMappedOutcome
          (prevTag set (blocksOf cfg ((traceAccesses tr).take i))) tag) := by
  obtain ⟨st0, h0, h1, _⟩ := initState_inv cfg (pow2_le_of_add _ _ hsb).1
  obtain ⟨st1, _, _, h3, _⟩ :=
    accessAll_sim cfg (by omega) hsb (traceAccesses tr) st0 _ h1
  refine ⟨st0, _, h0, h3, ?_⟩
  intro i hi set tag hd
  rw [decode_eq cfg _ hsb, Option.some.injEq] at hd
  have hD := lruRun_directMapped cfg hE ((traceAccesses tr).take i) _ _ DirectMapped_init
  have hstep := (lruStep_directMapped cfg hE _ _ (traceAccesses tr)[i] hD).2
  rw [lruOutcomes_getElem cfg _ _ i hi, hstep, blocksOf_eq cfg hsb, hd]
  simp

theorem direct_mapped_outcomes_witness :
    (Config.mk 1 1 0).E = 1 ∧ (2 : Int) ^ ((Config.mk 1 1 0).s + (Config.mk 1 1 0).b) ≤ INT_MAX ∧
    ((initState (Config.mk 1 1 0)).bind fun st0 =>
      (replayTrace (Config.mk 1 1 0) st0 [⟨'L', 0⟩, ⟨'L', 2⟩, ⟨'L', 0⟩]).map fun st =>
        (st.hit_cnt, st.miss_cnt, st.evict_cnt)) = some (0, 3, 2) ∧
    ∃ st0 os, initState (Config.mk 1 1 0) = some st0 ∧
      outcomesFrom (Config.mk 1 1 0) st0 (traceAccesses [⟨'L', 0⟩, ⟨'L', 2⟩, ⟨'L', 0⟩])
        = some os ∧
      ∀ (i : Nat) (hi : i < (traceAccesses [⟨'L', 0⟩, ⟨'L', 2⟩, ⟨'L', 0⟩]).length)
        (set tag : Nat),
        decode (Config.mk 1 1 0) (traceAccesses [⟨'L', 0⟩, ⟨'L', 2⟩, ⟨'L', 0⟩])[i]
          = some (set, tag) →
        os[i]? = some (directMappedOutcome
          (prevTag set (blocksOf (Config.mk 1 1 0)
            ((traceAccesses [⟨'L', 0⟩, ⟨'L', 2⟩, ⟨'L', 0⟩]).take i))) tag) :=
  ⟨by decide, by decide, by decide,
    direct_mapped_outcomes (Config.mk 1 1 0) [⟨'L', 0⟩, ⟨'L', 2⟩, ⟨'L', 0⟩]
      (by decide) (by decide)⟩

/-- C12. Replaying a trace is calling `accessData` once for each `L` or `S`
line and twice in a row with the same address for each `M` line, in trace
order; a line with any other operation letter changes neither the cache nor a
counter. -/
theorem replayTrace_is_access_sequence (cfg : Config) (st : State) (tr : List TraceEntry) :
    replayTrace cfg st tr = accessAll cfg st (traceAccesses tr) ∧
    replayTrace cfg st [] = some st ∧
    (∀ e rest, e.op = 'L' ∨ e.op = 'S' →
      traceAccesses (e :: rest) = e.addr :: traceAccesses rest ∧
      replayTrace cfg st (e :: rest)
        = (accessData cfg st e.addr).bind fun st1 => replayTrace cfg st1 rest) ∧
    (∀ e rest, e.op = 'M' →
      traceAccesses (e :: rest) = e.addr :: e.addr :: traceAccesses rest ∧
      replayTrace cfg st (e :: rest)
        = (accessData cfg st e.addr).bind fun st1 =>
            (accessData cfg st1 e.addr).bind fun st2 => replayTrace cfg st2 rest) ∧
    (∀ e rest, e.op ≠ 'L' → e.op ≠ 'S' → e.op ≠ 'M' →
      traceAccesses (e :: rest) = traceAccesses rest ∧
      replayEntry cfg st e = some st ∧
      replayTrace cfg st (e :: rest) = replayTrace cfg st rest) := by
  refine ⟨replayTrace_eq_accessAll cfg tr st, rfl, ?_, ?_, ?_⟩
  · intro e rest h
    have h1 : e.op = 'S' ∨ e.op = 'L' := h.symm
    have e1 : traceAccesses (e :: rest) = e.addr :: traceAccesses rest := by
      simp [traceAccesses, h1]
    refine ⟨e1, ?_⟩
    rw [replayTrace_eq_accessAll, e1]
    simp only [accessAll]
    cases accessData cfg st e.addr with
    | none => rfl
    | some st1 => simp [replayTrace_eq_accessAll]
  · intro e rest h
    have h1 : ¬ (e.op = 'S' ∨ e.op = 'L') := by rw [h]; decide
    have e1 : traceAccesses (e :: rest) = e.addr :: e.addr :: traceAccesses rest := by
      simp [traceAccesses, h1, h]
    refine ⟨e1, ?_⟩
    rw [replayTrace_eq_accessAll, e1]
    simp only [accessAll]
    cases accessData cfg st e.addr with
    | none => rfl
    | some st1 =>
      cases h2 : accessData cfg st1 e.addr with
      | none => simp [h2]
      | some st2 => simp [h2, replayTrace_eq_accessAll]
  · intro e rest hL hS hM
    have h1 : ¬ (e.op = 'S' ∨ e.op = 'L') := by tauto
    have e1 : traceAccesses (e :: rest) = traceAccesses rest := by
      simp [traceAccesses, h1, hM]
    refine ⟨e1, ?_, ?_⟩
    · simp [replayEntry, hL, hS, hM]
    · rw [replayTrace_eq_accessAll, e1, replayTrace_eq_accessAll]

theorem replayTrace_is_access_sequence_witness :
    replayTrace (Config.mk 1 2 1) (State.mk [[⟨'1', 0, 2⟩, ⟨'0', 0, 0⟩], [⟨'0', 0, 0⟩, ⟨'0', 0, 0⟩]] 0 1 0) [⟨'L', 0⟩, ⟨'I', 4⟩, ⟨'M', 8⟩] = accessAll (Config.mk 1 2 1) (State.mk [[⟨'1', 0, 2⟩, ⟨'0', 0, 0⟩], [⟨'0', 0, 0⟩, ⟨'0', 0, 0⟩]] 0 1 0) (traceAccesses [⟨'L', 0⟩, ⟨'I', 4⟩, ⟨'M', 8⟩]) ∧
    replayTrace (Config.mk 1 2 1) (State.mk [[⟨'1', 0, 2⟩, ⟨'0', 0, 0⟩], [⟨'0', 0, 0⟩, ⟨'0', 0, 0⟩]] 0 1 0) [] = some (State.mk [[⟨'1', 0, 2⟩, ⟨'0', 0, 0⟩], [⟨'0', 0, 0⟩, ⟨'0', 0, 0⟩]] 0 1 0) ∧
    (∀ e rest, e.op = 'L' ∨ e.op = 'S' →
      traceAccesses (e :: rest) = e.addr :: traceAccesses rest ∧
      replayTrace (Config.mk 1 2 1) (State.mk [[⟨'1', 0, 2⟩, ⟨'0', 0, 0⟩], [⟨'0', 0, 0⟩, ⟨'0', 0, 0⟩]] 0 1 0) (e :: rest)
        = (accessData (Config.mk 1 2 1) (State.mk [[⟨'1', 0, 2⟩, ⟨'0', 0, 0⟩], [⟨'0', 0, 0⟩, ⟨'0', 0, 0⟩]] 0 1 0) e.addr).bind fun st1 => replayTrace (Config.mk 1 2 1) st1 rest) ∧
    (∀ e rest, e.op = 'M' →
      traceAccesses (e :: rest) = e.addr :: e.addr :: traceAccesses rest ∧
      replayTrace (Config.mk 1 2 1) (State.mk [[⟨'1', 0, 2⟩, ⟨'0', 0, 0⟩], [⟨'0', 0, 0⟩, ⟨'0', 0, 0⟩]] 0 1 0) (e :: rest)
        = (accessData (Config.mk 1 2 1) (State.mk [[⟨'1', 0, 2⟩, ⟨'0', 0, 0⟩], [⟨'0', 0, 0⟩, ⟨'0', 0, 0⟩]] 0 1 0) e.addr).bind fun st1 =>
            (accessData (Config.mk 1 2 1) st1 e.addr).bind fun st2 => replayTrace (Config.mk 1 2 1) st2 rest) ∧
    (∀ e rest, e.op ≠ 'L' → e.op ≠ 'S' → e.op ≠ 'M' →
      traceAccesses (e :: rest) = traceAccesses rest ∧
      replayEntry (Config.mk 1 2 1) (State.mk [[⟨'1', 0, 2⟩, ⟨'0', 0, 0⟩], [⟨'0', 0, 0⟩, ⟨'0', 0, 0⟩]] 0 1 0) e = some (State.mk [[⟨'1', 0, 2⟩, ⟨'0', 0, 0⟩], [⟨'0', 0, 0⟩, ⟨'0', 0, 0⟩]] 0 1 0) ∧
      replayTrace (Config.mk 1 2 1) (State.mk [[⟨'1', 0, 2⟩, ⟨'0', 0, 0⟩], [⟨'0', 0, 0⟩, ⟨'0', 0, 0⟩]] 0 1 0) (e :: rest) = replayTrace (Config.mk 1 2 1) (State.mk [[⟨'1', 0, 2⟩, ⟨'0', 0, 0⟩], [⟨'0', 0, 0⟩, ⟨'0', 0, 0⟩]] 0 1 0) rest) :=
  replayTrace_is_access_sequence (Config.mk 1 2 1) (State.mk [[⟨'1', 0, 2⟩, ⟨'0', 0, 0⟩], [⟨'0', 0, 0⟩, ⟨'0', 0, 0⟩]] 0 1 0) [⟨'L', 0⟩, ⟨'I', 4⟩, ⟨'M', 8⟩]

/-- C14, the code at a failing input. With `s = 0` (or `E = 0`, or `b = 0`, or
no trace file) `main` prints the missing-argument message and calls
`printUsage`, which prints the usage text and itself calls `exit(0)`: the
process ends with status 0 and the `exit(1)` that follows is never reached. -/
theorem missing_argument_exits_zero :
    checkRequiredArgs 0 1 1 true []
      = Except.error { status := 0, printed := [Printed.missingArgument, Printed.usage] } ∧
    checkRequiredArgs 1 0 1 true []
      = Except.error { status := 0, printed := [Printed.missingArgument, Printed.usage] } ∧
    checkRequiredArgs 1 1 0 true []
      = Except.error { status := 0, printed := [Printed.missingArgument, Printed.usage] } ∧
    checkRequiredArgs 1 1 1 false []
      = Except.error { status := 0, printed := [Printed.missingArgument, Printed.usage] } :=
  ⟨rfl, rfl, rfl, rfl⟩

/-- C19. For `s`, `b` without `int` overflow of `B * S`, two addresses decode to
the same (set, tag) pair if and only if they lie in the same block
(`addr1 >> b = addr2 >> b`), and the pair determines the block number:
`tag * 2^s + set = addr >> b`. -/
theorem decode_same_iff_same_block (s E b : Nat)
    (hBS : (2 : Int) ^ b * (2 : Int) ^ s ≤ INT_MAX) :
    (∀ a1 a2 : Nat, decode (Config.mk s E b) a1 = decode (Config.mk s E b) a2
        ↔ a1 >>> b = a2 >>> b) ∧
    (∀ a set tag : Nat, decode (Config.mk s E b) a = some (set, tag) →
        tag * 2 ^ s + set = a >>> b) := by
  have h : (2 : Int) ^ ((Config.mk s E b).s + (Config.mk s E b).b) ≤ INT_MAX := by
    have e : (2 : Int) ^ (s + b) = 2 ^ b * 2 ^ s := by rw [pow_add]; ring
    simpa [e] using hBS
  have key : ∀ x : Nat, x / 2 ^ s * 2 ^ s + x % 2 ^ s = x := by
    intro x
    rw [Nat.mul_comm]
    exact Nat.div_add_mod x (2 ^ s)
  refine ⟨?_, ?_⟩
  · intro a1 a2
    rw [decode_eq _ a1 h, decode_eq _ a2 h]
    simp only [specDecode, Option.some.injEq, Prod.mk.injEq]
    constructor
    · rintro ⟨h1, h2⟩
      rw [← key (a1 >>> b), ← key (a2 >>> b), h1, h2]
    · intro h1
      rw [h1]
      exact ⟨rfl, rfl⟩
  · intro a set tag hd
    rw [decode_eq _ a h] at hd
    simp only [specDecode, Option.some.injEq, Prod.mk.injEq] at hd
    rw [← hd.1, ← hd.2]
    exact key _

theorem decode_same_iff_same_block_witness :
    (2 : Int) ^ 3 * (2 : Int) ^ 4 ≤ INT_MAX ∧
    (∀ a1 a2 : Nat, decode (Config.mk 4 2 3) a1 = decode (Config.mk 4 2 3) a2
        ↔ a1 >>> 3 = a2 >>> 3) ∧
    (∀ a set tag : Nat, decode (Config.mk 4 2 3) a = some (set, tag) →
        tag * 2 ^ 4 + set = a >>> 3) :=
  ⟨by decide, decode_same_iff_same_block 4 2 3 (by decide)⟩

/-- C11, as stated, fails. With `s = 2`, `E = 1`, `b = 30`, arguments that `main`
accepts, `initCache` builds the cache of 4 sets of 1 line, `B = 2^30` and
`S = 2^2` fit an `int`, but the `int` product `B * S = 2^32` overflows: the tag
computation `addr / (B * S)` is undefined and `accessData` returns no state, for
address 0 as for any other. -/
theorem accessData_undefined_on_overflow :
    initState (Config.mk 2 1 30)
      = some (State.mk [[⟨'0', 0, 0⟩], [⟨'0', 0, 0⟩], [⟨'0', 0, 0⟩], [⟨'0', 0, 0⟩]] 0 0 0) ∧
    intPow2 30 = some 1073741824 ∧ intPow2 2 = some 4 ∧ intMul 1073741824 4 = none ∧
    decode (Config.mk 2 1 30) 0 = none ∧
    accessData (Config.mk 2 1 30)
      (State.mk [[⟨'0', 0, 0⟩], [⟨'0', 0, 0⟩], [⟨'0', 0, 0⟩], [⟨'0', 0, 0⟩]] 0 0 0) 0 = none := by
  decide

/-- C11, amended. For every address, every `s`, `b` with `2^(s+b)` representable
as an `int`, and every state reached from the cache that `initCache` builds,
with `S = 2^s` sets of `E` lines, the set index that `accessData` computes is
below `S`, the set it selects has a line at every index below `E`, the indices
its loops use, and the call is total: it returns a state, again with `S` sets of
`E` lines. -/
theorem accessData_in_range (cfg : Config) (st : State) (addr : Nat)
    (hsb : (2 : Int) ^ (cfg.s + cfg.b) ≤ INT_MAX) (hst : Reachable cfg st) :
    ∃ set tag lines st1, decode cfg addr = some (set, tag) ∧ set < 2 ^ cfg.s ∧
      st.cache.length = 2 ^ cfg.s ∧ (∀ ls ∈ st.cache, ls.length = cfg.E) ∧
      st.cache[set]? = some lines ∧ (∀ i, i < cfg.E → ∃ l, lines[i]? = some l) ∧
      accessData cfg st addr = some st1 ∧
      st1.cache.length = 2 ^ cfg.s ∧ (∀ ls ∈ st1.cache, ls.length = cfg.E) := by
  obtain ⟨ref, hI⟩ := reachable_inv_any cfg hsb st hst
  obtain ⟨st1, ref1, h1, h2⟩ := accessData_inv cfg st ref addr hsb hI
  have hset := specDecode_lt cfg.s cfg.b addr
  obtain ⟨lines, hl, hR⟩ := hI.2 _ hset
  obtain ⟨k1, k2⟩ := inv_shape cfg st ref hI
  obtain ⟨m1, m2⟩ := inv_shape cfg st1 ref1 h2
  refine ⟨_, _, lines, st1, decode_eq cfg addr hsb, hset, k1, k2, hl, ?_, h1, m1, m2⟩
  intro i hi
  have hi2 : i < lines.length := by rw [hR.1]; exact hi
  exact ⟨lines[i], List.getElem?_eq_getElem hi2⟩

theorem accessData_in_range_witness :
    (2 : Int) ^ ((Config.mk 1 2 1).s + (Config.mk 1 2 1).b) ≤ INT_MAX ∧
    Reachable (Config.mk 1 2 1)
      { cache := [[⟨'1', 0, 2⟩, ⟨'0', 0, 0⟩], [⟨'0', 0, 0⟩, ⟨'0', 0, 0⟩]],
        hit_cnt := 0, miss_cnt := 1, evict_cnt := 0 } ∧
    ∃ set tag lines st1, decode (Config.mk 1 2 1) 18446744073709551615 = some (set, tag) ∧
      set < 2 ^ (Config.mk 1 2 1).s ∧
      (State.mk [[⟨'1', 0, 2⟩, ⟨'0', 0, 0⟩], [⟨'0', 0, 0⟩, ⟨'0', 0, 0⟩]] 0 1 0).cache.length
        = 2 ^ (Config.mk 1 2 1).s ∧
      (∀ ls ∈ (State.mk [[⟨'1', 0, 2⟩, ⟨'0', 0, 0⟩], [⟨'0', 0, 0⟩, ⟨'0', 0, 0⟩]] 0 1 0).cache,
        ls.length = (Config.mk 1 2 1).E) ∧
      (State.mk [[⟨'1', 0, 2⟩, ⟨'0', 0, 0⟩], [⟨'0', 0, 0⟩, ⟨'0', 0, 0⟩]] 0 1 0).cache[set]?
        = some lines ∧
      (∀ i, i < (Config.mk 1 2 1).E → ∃ l, lines[i]? = some l) ∧
      accessData (Config.mk 1 2 1)
        (State.mk [[⟨'1', 0, 2⟩, ⟨'0', 0, 0⟩], [⟨'0', 0, 0⟩, ⟨'0', 0, 0⟩]] 0 1 0)
        18446744073709551615 = some st1 ∧
      st1.cache.length = 2 ^ (Config.mk 1 2 1).s ∧
      (∀ ls ∈ st1.cache, ls.length = (Config.mk 1 2 1).E) :=
  ⟨by decide,
    ⟨State.mk [[⟨'0', 0, 0⟩, ⟨'0', 0, 0⟩], [⟨'0', 0, 0⟩, ⟨'0', 0, 0⟩]] 0 0 0, [0],
      by decide, by decide⟩,
    accessData_in_range (Config.mk 1 2 1) _ 18446744073709551615 (by decide)
      ⟨State.mk [[⟨'0', 0, 0⟩, ⟨'0', 0, 0⟩], [⟨'0', 0, 0⟩, ⟨'0', 0, 0⟩]] 0 0 0, [0],
        by decide, by decide⟩⟩

/-- C13. An `accessData` call whose address decodes to set index `set` leaves
every other set as it was, with the valid bit, tag and recency counter of each
of its lines, and keeps the number of sets; on a state reached from `initCache`
the call returns. -/
theorem other_sets_unchanged (cfg : Config) (st : State) (addr set tag : Nat)
    (hd : decode cfg addr = some (set, tag)) :
    (∀ st1, accessData cfg st addr = some st1 →
      st1.cache.length = st.cache.length ∧
      ∀ j, j ≠ set → st1.cache[j]? = st.cache[j]?) ∧
    (Reachable cfg st → ∃ st1, accessData cfg st addr = some st1) := by
  refine ⟨?_, ?_⟩
  · intro st1 h
    obtain ⟨set2, tag2, lines2, h1, h2⟩ := accessData_cache cfg st st1 addr h
    rw [hd] at h1
    have e : set = set2 := congrArg Prod.fst (Option.some.inj h1)
    subst e
    rw [h2]
    refine ⟨List.length_set _ _ _, ?_⟩
    intro j hj
    exact List.getElem?_set_ne (fun e => hj e.symm)
  · intro hst
    have hsb := decode_some_bound cfg addr _ hd
    obtain ⟨ref, hI⟩ := reachable_inv_any cfg hsb st hst
    obtain ⟨st1, _, h1, _⟩ := accessData_inv cfg st ref addr hsb hI
    exact ⟨st1, h1⟩

theorem other_sets_unchanged_witness :
    decode (Config.mk 1 2 1) 2 = some (1, 0) ∧
    (∀ st1, accessData (Config.mk 1 2 1)
        (State.mk [[⟨'1', 0, 2⟩, ⟨'0', 0, 0⟩], [⟨'0', 0, 0⟩, ⟨'0', 0, 0⟩]] 0 1 0) 2 = some st1 →
      st1.cache.length
        = (State.mk [[⟨'1', 0, 2⟩, ⟨'0', 0, 0⟩], [⟨'0', 0, 0⟩, ⟨'0', 0, 0⟩]] 0 1 0).cache.length ∧
      ∀ j, j ≠ 1 → st1.cache[j]?
        = (State.mk [[⟨'1', 0, 2⟩, ⟨'0', 0, 0⟩], [⟨'0', 0, 0⟩, ⟨'0', 0, 0⟩]] 0 1 0).cache[j]?) ∧
    (Reachable (Config.mk 1 2 1)
        (State.mk [[⟨'1', 0, 2⟩, ⟨'0', 0, 0⟩], [⟨'0', 0, 0⟩, ⟨'0', 0, 0⟩]] 0 1 0) →
      ∃ st1, accessData (Config.mk 1 2 1)
        (State.mk [[⟨'1', 0, 2⟩, ⟨'0', 0, 0⟩], [⟨'0', 0, 0⟩, ⟨'0', 0, 0⟩]] 0 1 0) 2 = some st1) :=
  ⟨by decide, other_sets_unchanged (Config.mk 1 2 1) _ 2 1 0 (by decide)⟩

/-- C15. For every reachable state (`E ≥ 1`) and address, `accessData` returns
and changes the counters in exactly one of three ways. If the target set holds a
valid line with the decoded tag: `hit_cnt` + 1 only, and no valid bit or tag of
the set changes. Otherwise, if the set holds an invalid line: `miss_cnt` + 1
only, and the first invalid line becomes valid with that tag. Otherwise:
`miss_cnt` + 1 and `evict_cnt` + 1, and one valid line has its tag overwritten
and stays valid. In the two miss cases no other valid bit or tag changes. -/
theorem accessData_three_ways (cfg : Config) (st : State) (addr set tag : Nat)
    (hE : 1 ≤ cfg.E) (hst : Reachable cfg st) (hd : decode cfg addr = some (set, tag)) :
    ∃ lines lines1 st1, st.cache[set]? = some lines ∧ accessData cfg st addr = some st1 ∧
      st1.cache[set]? = some lines1 ∧
      ((∃ x ∈ lines, x.valid = '1' ∧ x.tag = tag) →
        st1.hit_cnt = st.hit_cnt + 1 ∧ st1.miss_cnt = st.miss_cnt ∧
        st1.evict_cnt = st.evict_cnt ∧
        lines1.map (fun l => (l.valid, l.tag)) = lines.map (fun l => (l.valid, l.tag))) ∧
      (¬ (∃ x ∈ lines, x.valid = '1' ∧ x.tag = tag) → (∃ x ∈ lines, x.valid = '0') →
        st1.hit_cnt = st.hit_cnt ∧ st1.miss_cnt = st.miss_cnt + 1 ∧
        st1.evict_cnt = st.evict_cnt ∧
        ∃ pre l post pre1 l1 post1, lines = pre ++ l :: post ∧
          lines1 = pre1 ++ l1 :: post1 ∧
          (∀ x ∈ pre, x.valid ≠ '0') ∧ l.valid = '0' ∧ l1.valid = '1' ∧ l1.tag = tag ∧
          pre1.map (fun l => (l.valid, l.tag)) = pre.map (fun l => (l.valid, l.tag)) ∧
          post1.map (fun l => (l.valid, l.tag)) = post.map (fun l => (l.valid, l.tag))) ∧
      (¬ (∃ x ∈ lines, x.valid = '1' ∧ x.tag = tag) → ¬ (∃ x ∈ lines, x.valid = '0') →
        st1.hit_cnt = st.hit_cnt ∧ st1.miss_cnt = st.miss_cnt + 1 ∧
        st1.evict_cnt = st.evict_cnt + 1 ∧
        ∃ pre l post pre1 l1 post1, lines = pre ++ l :: post ∧
          lines1 = pre1 ++ l1 :: post1 ∧
          l.valid = '1' ∧ l.tag ≠ tag ∧ l1.valid = '1' ∧ l1.tag = tag ∧
          pre1.map (fun l => (l.valid, l.tag)) = pre.map (fun l => (l.valid, l.tag)) ∧
          post1.map (fun l => (l.valid, l.tag)) = post.map (fun l => (l.valid, l.tag))) := by
  have hsb := decode_some_bound cfg addr _ hd
  obtain ⟨ref, hI⟩ := reachable_inv cfg hE hsb st hst
  rw [decode_eq cfg addr hsb, Option.some.injEq] at hd
  have hset : (specDecode cfg.s cfg.b addr).1 = set := congrArg Prod.fst hd
  have htag : (specDecode cfg.s cfg.b addr).2 = tag := congrArg Prod.snd hd
  obtain ⟨lines, pre, l, post, l2, st1, hl, e, h1, hc, _, _, hcase⟩ :=
    accessData_shape cfg st ref addr hE hsb hI
  rw [hset] at hl hc
  rw [htag] at hcase
  have hl1 : st1.cache[set]? = some ((pre ++ l2 :: post).map (decLine l.counter)) := by
    rw [hc]
    exact getElem?_set_map_cons st.cache set lines _ hl
  have hsplit : (pre ++ l2 :: post).map (decLine l.counter)
      = pre.map (decLine l.counter) ++ decLine l.counter l2 :: post.map (decLine l.counter) := by
    simp
  have hnot : ∀ P : Prop, (∀ x ∈ lines, hitTest tag x = false) →
      ((∃ x ∈ lines, x.valid = '1' ∧ x.tag = tag) → P) := by
    intro P hno ⟨x, hx, hx2⟩
    have := hno x hx
    rw [hitTest_false_iff] at this
    exact absurd hx2 this
  refine ⟨lines, _, st1, hl, h1, hl1, ?_, ?_, ?_⟩
  · intro hex
    rcases hcase with ⟨hpl, _, el2, c1, c2, c3⟩ | ⟨hno, _⟩ | ⟨hno, _⟩
    · refine ⟨c1, c2, c3, ?_⟩
      rw [map_valid_tag_decLine, e, el2]
      simp [hitUpd]
    · exact hnot _ hno hex
    · exact hnot _ hno hex
  · intro hnex hinv
    rcases hcase with ⟨hpl, _⟩ | ⟨_, hpl, hpre, el2, c1, c2, c3⟩ | ⟨_, hnofill, _⟩
    · exact absurd ⟨l, by rw [e]; simp, (hitTest_iff tag l).mp hpl⟩ hnex
    · refine ⟨c1, c2, c3, pre, l, post, _, _, _, e, hsplit, ?_, ?_, ?_, ?_,
        map_valid_tag_decLine _ _, map_valid_tag_decLine _ _⟩
      · intro x hx
        exact (fillTest_false_iff x).mp (hpre x hx)
      · simpa [fillTest] using hpl
      · rw [decLine_valid, el2]; rfl
      · rw [decLine_tag, el2]; rfl
    · obtain ⟨x, hx, hx0⟩ := hinv
      exact absurd hx0 ((fillTest_false_iff x).mp (hnofill x hx))
  · intro hnex hninv
    rcases hcase with ⟨hpl, _⟩ | ⟨_, hpl, _⟩ | ⟨hno, hnofill, hpl, _, el2, c1, c2, c3⟩
    · exact absurd ⟨l, by rw [e]; simp, (hitTest_iff tag l).mp hpl⟩ hnex
    · exact absurd ⟨l, by rw [e]; simp, by simpa [fillTest] using hpl⟩ hninv
    · have hlmem : l ∈ lines := by rw [e]; simp
      have hlv : l.valid = '1' := by
        obtain ⟨q, hq⟩ := inv_mem cfg st ref hI lines (List.getElem?_mem hl)
        rcases hq.2.2.1 l hlmem with hv | ⟨hv, _⟩
        · exact hv
        · exact absurd hv ((fillTest_false_iff l).mp (hnofill l hlmem))
      have hlt : l.tag ≠ tag := by
        intro ht
        exact (hitTest_false_iff tag l).mp (hno l hlmem) ⟨hlv, ht⟩
      refine ⟨c1, c2, c3, pre, l, post, _, _, _, e, hsplit, hlv, hlt, ?_, ?_,
        map_valid_tag_decLine _ _, map_valid_tag_decLine _ _⟩
      · rw [decLine_valid, el2]; exact hlv
      · rw [decLine_tag, el2]; rfl

theorem accessData_three_ways_witness :
    1 ≤ (Config.mk 1 2 1).E ∧ Reachable (Config.mk 1 2 1) (State.mk [[⟨'1', 0, 2⟩, ⟨'0', 0, 0⟩], [⟨'0', 0, 0⟩, ⟨'0', 0, 0⟩]] 0 1 0) ∧
    decode (Config.mk 1 2 1) 8 = some (0, 2) ∧
    ∃ lines lines1 st1, (State.mk [[⟨'1', 0, 2⟩, ⟨'0', 0, 0⟩], [⟨'0', 0, 0⟩, ⟨'0', 0, 0⟩]] 0 1 0).cache[0]? = some lines ∧ accessData (Config.mk 1 2 1) (State.mk [[⟨'1', 0, 2⟩, ⟨'0', 0, 0⟩], [⟨'0', 0, 0⟩, ⟨'0', 0, 0⟩]] 0 1 0) 8 = some st1 ∧
      st1.cache[0]? = some lines1 ∧
      ((∃ x ∈ lines, x.valid = '1' ∧ x.tag = 2) →
        st1.hit_cnt = (State.mk [[⟨'1', 0, 2⟩, ⟨'0', 0, 0⟩], [⟨'0', 0, 0⟩, ⟨'0', 0, 0⟩]] 0 1 0).hit_cnt + 1 ∧ st1.miss_cnt = (State.mk [[⟨'1', 0, 2⟩, ⟨'0', 0, 0⟩], [⟨'0', 0, 0⟩, ⟨'0', 0, 0⟩]] 0 1 0).miss_cnt ∧
        st1.evict_cnt = (State.mk [[⟨'1', 0, 2⟩, ⟨'0', 0, 0⟩], [⟨'0', 0, 0⟩, ⟨'0', 0, 0⟩]] 0 1 0).evict_cnt ∧
        lines1.map (fun l => (l.valid, l.tag)) = lines.map (fun l => (l.valid, l.tag))) ∧
      (¬ (∃ x ∈ lines, x.valid = '1' ∧ x.tag = 2) → (∃ x ∈ lines, x.valid = '0') →
        st1.hit_cnt = (State.mk [[⟨'1', 0, 2⟩, ⟨'0', 0, 0⟩], [⟨'0', 0, 0⟩, ⟨'0', 0, 0⟩]] 0 1 0).hit_cnt ∧ st1.miss_cnt = (State.mk [[⟨'1', 0, 2⟩, ⟨'0', 0, 0⟩], [⟨'0', 0, 0⟩, ⟨'0', 0, 0⟩]] 0 1 0).miss_cnt + 1 ∧
        st1.evict_cnt = (State.mk [[⟨'1', 0, 2⟩, ⟨'0', 0, 0⟩], [⟨'0', 0, 0⟩, ⟨'0', 0, 0⟩]] 0 1 0).evict_cnt ∧
        ∃ pre l post pre1 l1 post1, lines = pre ++ l :: post ∧
          lines1 = pre1 ++ l1 :: post1 ∧
          (∀ x ∈ pre, x.valid ≠ '0') ∧ l.valid = '0' ∧ l1.valid = '1' ∧ l1.tag = 2 ∧
          pre1.map (fun l => (l.valid, l.tag)) = pre.map (fun l => (l.valid, l.tag)) ∧
          post1.map (fun l => (l.valid, l.tag)) = post.map (fun l => (l.valid, l.tag))) ∧
      (¬ (∃ x ∈ lines, x.valid = '1' ∧ x.tag = 2) → ¬ (∃ x ∈ lines, x.valid = '0') →
        st1.hit_cnt = (State.mk [[⟨'1', 0, 2⟩, ⟨'0', 0, 0⟩], [⟨'0', 0, 0⟩, ⟨'0', 0, 0⟩]] 0 1 0).hit_cnt ∧ st1.miss_cnt = (State.mk [[⟨'1', 0, 2⟩, ⟨'0', 0, 0⟩], [⟨'0', 0, 0⟩, ⟨'0', 0, 0⟩]] 0 1 0).miss_cnt + 1 ∧
        st1.evict_cnt = (State.mk [[⟨'1', 0, 2⟩, ⟨'0', 0, 0⟩], [⟨'0', 0, 0⟩, ⟨'0', 0, 0⟩]] 0 1 0).evict_cnt + 1 ∧
        ∃ pre l post pre1 l1 post1, lines = pre ++ l :: post ∧
          lines1 = pre1 ++ l1 :: post1 ∧
          l.valid = '1' ∧ l.tag ≠ 2 ∧ l1.valid = '1' ∧ l1.tag = 2 ∧
          pre1.map (fun l => (l.valid, l.tag)) = pre.map (fun l => (l.valid, l.tag)) ∧
          post1.map (fun l => (l.valid, l.tag)) = post.map (fun l => (l.valid, l.tag))) :=
  ⟨by decide, ⟨State.mk [[⟨'0', 0, 0⟩, ⟨'0', 0, 0⟩], [⟨'0', 0, 0⟩, ⟨'0', 0, 0⟩]] 0 0 0, [0], by decide, by decide⟩, by decide,
    accessData_three_ways (Config.mk 1 2 1) (State.mk [[⟨'1', 0, 2⟩, ⟨'0', 0, 0⟩], [⟨'0', 0, 0⟩, ⟨'0', 0, 0⟩]] 0 1 0) 8 0 2 (by decide)
      ⟨State.mk [[⟨'0', 0, 0⟩, ⟨'0', 0, 0⟩], [⟨'0', 0, 0⟩, ⟨'0', 0, 0⟩]] 0 0 0, [0], by decide, by decide⟩ (by decide)⟩

/-- C16. In every state reachable from `initCache` with `E ≥ 1`, when an access
finds no matching valid line and no invalid line in its set, exactly one line of
that set has recency counter 1; the eviction scan finds it, so `prevCounter` is
assigned (the value 1) before the decrement loop, and the call returns with
`evict_cnt` + 1. -/
theorem eviction_victim_unique (cfg : Config) (st : State) (addr set tag : Nat)
    (lines : cache_set_t) (hE : 1 ≤ cfg.E) (hst : Reachable cfg st)
    (hd : decode cfg addr = some (set, tag)) (hl : st.cache[set]? = some lines)
    (hnohit : ∀ x ∈ lines, ¬ (x.valid = '1' ∧ x.tag = tag))
    (hnoinv : ∀ x ∈ lines, x.valid ≠ '0') :
    lines.countP (fun x => decide (x.counter = 1)) = 1 ∧
    ∃ lines1 st1,
      scanLoop evictTest (evictUpd cfg.E tag) lines cfg.E 0 = some (some (lines1, 1)) ∧
      accessData cfg st addr = some st1 ∧ st1.evict_cnt = st.evict_cnt + 1 := by
  have hsb := decode_some_bound cfg addr _ hd
  obtain ⟨ref, hI⟩ := reachable_inv cfg hE hsb st hst
  rw [decode_eq cfg addr hsb, Option.some.injEq] at hd
  have hset : (specDecode cfg.s cfg.b addr).1 = set := congrArg Prod.fst hd
  have htag : (specDecode cfg.s cfg.b addr).2 = tag := congrArg Prod.snd hd
  obtain ⟨q, hq⟩ := inv_mem cfg st ref hI lines (List.getElem?_mem hl)
  have hall : ∀ x ∈ lines, x.valid = '1' := by
    intro x hx
    rcases hq.2.2.1 x hx with hv | ⟨hv, _⟩
    · exact hv
    · exact absurd hv (hnoinv x hx)
  refine ⟨?_, ?_⟩
  · have hvc : validCounters lines = lines.map (fun l => l.counter) := by
      unfold validCounters
      rw [List.filter_eq_self.mpr (fun x hx => by simp [hall x hx])]
    have hnd : (lines.map (fun l => l.counter)).Nodup := by
      rw [← hvc]; exact hq.counters_nodup
    obtain ⟨x, hx, hx1⟩ := hq.exists_one hE hall
    have hmem : (1 : Int) ∈ lines.map (fun l => l.counter) := by
      refine List.mem_map.mpr ⟨x, hx, ?_⟩
      simpa [evictTest] using hx1
    have hcount := List.count_eq_one_of_mem hnd hmem
    rw [List.count_eq_countP, List.countP_map] at hcount
    rw [← hcount]
    apply List.countP_congr
    intro y _
    simp
  · obtain ⟨lines2, pre, l, post, l2, st1, hl2, e, h1, _, _, _, hcase⟩ :=
      accessData_shape cfg st ref addr hE hsb hI
    rw [hset, hl, Option.some.injEq] at hl2
    subst hl2
    rw [htag] at hcase
    rcases hcase with ⟨hpl, _⟩ | ⟨_, hpl, _⟩ | ⟨_, _, hpl, hpre, _, _, _, c3⟩
    · exact absurd ((hitTest_iff tag l).mp hpl) (hnohit l (by rw [e]; simp))
    · exact absurd (by simpa [fillTest] using hpl) (hnoinv l (by rw [e]; simp))
    · have hscan := scanLoop_found evictTest (evictUpd cfg.E tag) l post hpl pre [] hpre
      simp only [List.nil_append, List.length_nil] at hscan
      rw [← e, hq.1] at hscan
      have hl1 : l.counter = 1 := by simpa [evictTest] using hpl
      rw [hl1] at hscan
      exact ⟨_, st1, hscan, h1, c3⟩

theorem eviction_victim_unique_witness :
    1 ≤ (Config.mk 1 2 1).E ∧ Reachable (Config.mk 1 2 1) (State.mk [[⟨'1', 0, 1⟩, ⟨'1', 2, 2⟩], [⟨'0', 0, 0⟩, ⟨'0', 0, 0⟩]] 0 2 0) ∧
    decode (Config.mk 1 2 1) 16 = some (0, 4) ∧
    (State.mk [[⟨'1', 0, 1⟩, ⟨'1', 2, 2⟩], [⟨'0', 0, 0⟩, ⟨'0', 0, 0⟩]] 0 2 0).cache[0]? = some [⟨'1', 0, 1⟩, ⟨'1', 2, 2⟩] ∧
    (∀ x ∈ ([⟨'1', 0, 1⟩, ⟨'1', 2, 2⟩] : cache_set_t), ¬ (x.valid = '1' ∧ x.tag = 4)) ∧
    (∀ x ∈ ([⟨'1', 0, 1⟩, ⟨'1', 2, 2⟩] : cache_set_t), x.valid ≠ '0') ∧
    ([⟨'1', 0, 1⟩, ⟨'1', 2, 2⟩] : cache_set_t).countP (fun x => decide (x.counter = 1)) = 1 ∧
    ∃ lines1 st1,
      scanLoop evictTest (evictUpd (Config.mk 1 2 1).E 4) ([⟨'1', 0, 1⟩, ⟨'1', 2, 2⟩] : cache_set_t) (Config.mk 1 2 1).E 0 = some (some (lines1, 1)) ∧
      accessData (Config.mk 1 2 1) (State.mk [[⟨'1', 0, 1⟩, ⟨'1', 2, 2⟩], [⟨'0', 0, 0⟩, ⟨'0', 0, 0⟩]] 0 2 0) 16 = some st1 ∧ st1.evict_cnt = (State.mk [[⟨'1', 0, 1⟩, ⟨'1', 2, 2⟩], [⟨'0', 0, 0⟩, ⟨'0', 0, 0⟩]] 0 2 0).evict_cnt + 1 :=
  ⟨by decide, ⟨State.mk [[⟨'0', 0, 0⟩, ⟨'0', 0, 0⟩], [⟨'0', 0, 0⟩, ⟨'0', 0, 0⟩]] 0 0 0, [0, 8], by decide, by decide⟩, by decide, by decide,
    by decide, by decide,
    eviction_victim_unique (Config.mk 1 2 1) (State.mk [[⟨'1', 0, 1⟩, ⟨'1', 2, 2⟩], [⟨'0', 0, 0⟩, ⟨'0', 0, 0⟩]] 0 2 0) 16 0 4 [⟨'1', 0, 1⟩, ⟨'1', 2, 2⟩] (by decide)
      ⟨State.mk [[⟨'0', 0, 0⟩, ⟨'0', 0, 0⟩], [⟨'0', 0, 0⟩, ⟨'0', 0, 0⟩]] 0 0 0, [0, 8], by decide, by decide⟩ (by decide) (by decide) (by decide)
      (by decide)⟩

/-- C17. For every `accessData` call on a reachable state, the call returns, and
when the set has lines (`E ≥ 1`), with `l` the line that is hit, filled or
evicted and `r_old = l.counter` its prior recency counter: afterwards that line
is valid, carries the tag and has counter `E`, and every other line of the set
is changed by the decrement step only, which lowers a counter strictly greater
than `r_old` by exactly 1 and keeps a counter `≤ r_old`, valid bit and tag
untouched. -/
theorem promotion_compacts_ranks (cfg : Config) (st : State) (addr set tag : Nat)
    (hst : Reachable cfg st) (hd : decode cfg addr = some (set, tag)) :
    (∃ st1, accessData cfg st addr = some st1) ∧
    (1 ≤ cfg.E →
      ∃ pre l post l1 st1, st.cache[set]? = some (pre ++ l :: post) ∧
        accessData cfg st addr = some st1 ∧
        st1.cache[set]?
          = some (pre.map (decLine l.counter) ++ l1 :: post.map (decLine l.counter)) ∧
        l1.valid = '1' ∧ l1.tag = tag ∧ l1.counter = cfg.E ∧
        ((l.valid = '1' ∧ l.tag = tag) ∨
          ((∀ x ∈ pre ++ l :: post, ¬ (x.valid = '1' ∧ x.tag = tag)) ∧ l.valid = '0' ∧
            ∀ x ∈ pre, x.valid ≠ '0') ∨
          ((∀ x ∈ pre ++ l :: post, ¬ (x.valid = '1' ∧ x.tag = tag)) ∧
            (∀ x ∈ pre ++ l :: post, x.valid ≠ '0') ∧ l.counter = 1 ∧
            ∀ x ∈ pre, x.counter ≠ 1)) ∧
        ∀ x : cache_line_t,
          (decLine l.counter x).counter
            = (if x.counter > l.counter then x.counter - 1 else x.counter) ∧
          (decLine l.counter x).valid = x.valid ∧ (decLine l.counter x).tag = x.tag) := by
  have hsb := decode_some_bound cfg addr _ hd
  obtain ⟨ref0, hI0⟩ := reachable_inv_any cfg hsb st hst
  obtain ⟨st1, _, h1, _⟩ := accessData_inv cfg st ref0 addr hsb hI0
  refine ⟨⟨st1, h1⟩, ?_⟩
  intro hE
  obtain ⟨ref, hI⟩ := reachable_inv cfg hE hsb st hst
  rw [decode_eq cfg addr hsb, Option.some.injEq] at hd
  have hset : (specDecode cfg.s cfg.b addr).1 = set := congrArg Prod.fst hd
  have htag : (specDecode cfg.s cfg.b addr).2 = tag := congrArg Prod.snd hd
  obtain ⟨lines, pre, l, post, l2, st2, hl, e, h2, hc, hb0, hbE, hcase⟩ :=
    accessData_shape cfg st ref addr hE hsb hI
  rw [hset] at hl hc
  rw [htag] at hcase
  subst e
  have hl1 : st2.cache[set]? = some ((pre ++ l2 :: post).map (decLine l.counter)) := by
    rw [hc]
    exact getElem?_set_map_cons st.cache set _ _ hl
  have hsplit : (pre ++ l2 :: post).map (decLine l.counter)
      = pre.map (decLine l.counter) ++ decLine l.counter l2 :: post.map (decLine l.counter) := by
    simp
  rw [hsplit] at hl1
  have hcnt : ∀ l3 : cache_line_t, l3.counter = (cfg.E : Int) + 1 →
      (decLine l.counter l3).counter = cfg.E := by
    intro l3 h3
    rw [decLine_counter, h3]
    have : (cfg.E : Int) + 1 > l.counter := by omega
    simp [this]
  have hno : ∀ L : List cache_line_t, (∀ x ∈ L, hitTest tag x = false) →
      ∀ x ∈ L, ¬ (x.valid = '1' ∧ x.tag = tag) :=
    fun L h x hx => (hitTest_false_iff tag x).mp (h x hx)
  have hnf : ∀ L : List cache_line_t, (∀ x ∈ L, fillTest x = false) →
      ∀ x ∈ L, x.valid ≠ '0' :=
    fun L h x hx => (fillTest_false_iff x).mp (h x hx)
  refine ⟨pre, l, post, decLine l.counter l2, st2, hl, h2, hl1, ?_, ?_, ?_, ?_,
    fun x => ⟨decLine_counter _ x, decLine_valid _ x, decLine_tag _ x⟩⟩
  · rw [decLine_valid]
    rcases hcase with ⟨hpl, _, el2, _⟩ | ⟨_, _, _, el2, _⟩ | ⟨_, hnofill, _, _, el2, _⟩
    · rw [el2]; exact ((hitTest_iff tag l).mp hpl).1
    · rw [el2]; rfl
    · rw [el2]
      have hlmem : l ∈ pre ++ l :: post := by simp
      obtain ⟨q, hq⟩ := inv_mem cfg st ref hI _ (List.getElem?_mem hl)
      rcases hq.2.2.1 l hlmem with hv | ⟨hv, _⟩
      · exact hv
      · exact absurd hv ((fillTest_false_iff l).mp (hnofill l hlmem))
  · rw [decLine_tag]
    rcases hcase with ⟨hpl, _, el2, _⟩ | ⟨_, _, _, el2, _⟩ | ⟨_, _, _, _, el2, _⟩
    · rw [el2]; exact ((hitTest_iff tag l).mp hpl).2
    · rw [el2]; rfl
    · rw [el2]; rfl
  · rcases hcase with ⟨_, _, el2, _⟩ | ⟨_, _, _, el2, _⟩ | ⟨_, _, _, _, el2, _⟩ <;>
      exact hcnt l2 (by rw [el2]; rfl)
  · rcases hcase with ⟨hpl, _⟩ | ⟨hnohit, hpl, hpre, _⟩ | ⟨hnohit, hnofill, hpl, hpre, _⟩
    · exact Or.inl ((hitTest_iff tag l).mp hpl)
    · exact Or.inr (Or.inl ⟨hno _ hnohit, by simpa [fillTest] using hpl, hnf _ hpre⟩)
    · refine Or.inr (Or.inr ⟨hno _ hnohit, hnf _ hnofill, by simpa [evictTest] using hpl, ?_⟩)
      intro x hx
      have := hpre x hx
      simpa [evictTest] using this

theorem promotion_compacts_ranks_witness :
    Reachable (Config.mk 1 2 1) (State.mk [[⟨'1', 0, 1⟩, ⟨'1', 2, 2⟩], [⟨'0', 0, 0⟩, ⟨'0', 0, 0⟩]] 0 2 0) ∧
    decode (Config.mk 1 2 1) 0 = some (0, 0) ∧
    (∃ st1, accessData (Config.mk 1 2 1) (State.mk [[⟨'1', 0, 1⟩, ⟨'1', 2, 2⟩], [⟨'0', 0, 0⟩, ⟨'0', 0, 0⟩]] 0 2 0) 0 = some st1) ∧
    (1 ≤ (Config.mk 1 2 1).E →
      ∃ pre l post l1 st1, (State.mk [[⟨'1', 0, 1⟩, ⟨'1', 2, 2⟩], [⟨'0', 0, 0⟩, ⟨'0', 0, 0⟩]] 0 2 0).cache[0]? = some (pre ++ l :: post) ∧
        accessData (Config.mk 1 2 1) (State.mk [[⟨'1', 0, 1⟩, ⟨'1', 2, 2⟩], [⟨'0', 0, 0⟩, ⟨'0', 0, 0⟩]] 0 2 0) 0 = some st1 ∧
        st1.cache[0]?
          = some (pre.map (decLine l.counter) ++ l1 :: post.map (decLine l.counter)) ∧
        l1.valid = '1' ∧ l1.tag = 0 ∧ l1.counter = (Config.mk 1 2 1).E ∧
        ((l.valid = '1' ∧ l.tag = 0) ∨
          ((∀ x ∈ pre ++ l :: post, ¬ (x.valid = '1' ∧ x.tag = 0)) ∧ l.valid = '0' ∧
            ∀ x ∈ pre, x.valid ≠ '0') ∨
          ((∀ x ∈ pre ++ l :: post, ¬ (x.valid = '1' ∧ x.tag = 0)) ∧
            (∀ x ∈ pre ++ l :: post, x.valid ≠ '0') ∧ l.counter = 1 ∧
            ∀ x ∈ pre, x.counter ≠ 1)) ∧
        ∀ x : cache_line_t,
          (decLine l.counter x).counter
            = (if x.counter > l.counter then x.counter - 1 else x.counter) ∧
          (decLine l.counter x).valid = x.valid ∧ (decLine l.counter x).tag = x.tag) :=
  ⟨⟨State.mk [[⟨'0', 0, 0⟩, ⟨'0', 0, 0⟩], [⟨'0', 0, 0⟩, ⟨'0', 0, 0⟩]] 0 0 0, [0, 8], by decide, by decide⟩, by decide,
    promotion_compacts_ranks (Config.mk 1 2 1) (State.mk [[⟨'1', 0, 1⟩, ⟨'1', 2, 2⟩], [⟨'0', 0, 0⟩, ⟨'0', 0, 0⟩]] 0 2 0) 0 0 0
      ⟨State.mk [[⟨'0', 0, 0⟩, ⟨'0', 0, 0⟩], [⟨'0', 0, 0⟩, ⟨'0', 0, 0⟩]] 0 0 0, [0, 8], by decide, by decide⟩ (by decide)⟩

/-- C18. Invariant of `accessData` on states reached from `initCache`
(`E ≥ 1`): in every set with `k` valid lines, every line is valid or invalid,
the invalid lines all have counter 0, the counters of the valid lines are
pairwise distinct and are exactly `E - k + 1, ..., E`, every counter lies in
`[0, E]`, and in a set that was accessed the line that the most recent access to
it touched is valid, carries the tag of that access and has counter `E`. -/
theorem counter_invariant (cfg : Config) (addrs : List Nat) (hE : 1 ≤ cfg.E)
    (hsb : (2 : Int) ^ (cfg.s + cfg.b) ≤ INT_MAX) :
    ∃ st0 st, initState cfg = some st0 ∧ accessAll cfg st0 addrs = some st ∧
      (∀ lines ∈ st.cache,
        (∀ l ∈ lines, l.valid = '1' ∨ l.valid = '0') ∧
        (∀ l ∈ lines, l.valid = '0' → l.counter = 0) ∧
        (validCounters lines).Nodup ∧
        (validCounters lines).length ≤ cfg.E ∧
        (validCounters lines).Perm
          (ranks ((cfg.E : Int) - (validCounters lines).length + 1)
            (validCounters lines).length) ∧
        (∀ l ∈ lines, 0 ≤ l.counter ∧ l.counter ≤ cfg.E)) ∧
      (∀ set tag, prevTag set (blocksOf cfg addrs) = some tag →
        ∃ lines l, st.cache[set]? = some lines ∧ l ∈ lines ∧
          l.valid = '1' ∧ l.tag = tag ∧ l.counter = cfg.E) := by
  obtain ⟨st0, h0, h1, _⟩ := initState_inv cfg (pow2_le_of_add _ _ hsb).1
  obtain ⟨st, k1, k2, _⟩ := accessAll_sim cfg hE hsb addrs st0 _ h1
  refine ⟨st0, st, h0, k1, ?_, ?_⟩
  · intro lines hl
    obtain ⟨q, hq⟩ := inv_mem cfg st _ k2 lines hl
    refine ⟨?_, ?_, hq.counters_nodup, hq.counters.1, hq.counters.2,
      fun l hl2 => hq.counter_bounds l hl2⟩
    · intro l hl2
      rcases hq.2.2.1 l hl2 with hv | ⟨hv, _⟩
      · exact Or.inl hv
      · exact Or.inr hv
    · intro l hl2 hv0
      rcases hq.2.2.1 l hl2 with hv | ⟨_, hc⟩
      · rw [hv0] at hv
        exact absurd hv (by decide)
      · exact hc
  · intro set tag hp
    rw [blocksOf_eq cfg hsb] at hp
    have hhead := lruRun_head cfg hE addrs (fun _ => []) [] (fun _ => rfl) set
    rw [List.nil_append, hp] at hhead
    by_cases hs : set < 2 ^ cfg.s
    · obtain ⟨lines, hl, hR⟩ := k2.2 set hs
      obtain ⟨_, _, _, hperm⟩ := hR
      cases hq : lruRun cfg (fun _ => []) addrs set with
      | nil => rw [hq] at hhead; simp at hhead
      | cons t q =>
        rw [hq] at hhead hperm
        simp only [List.head?_cons, Option.some.injEq] at hhead
        subst hhead
        have hm : (t, (cfg.E : Int)) ∈ ranked (cfg.E : Int) (t :: q) := by
          simp [ranked]
        obtain ⟨l, hlm, hv, hpair⟩ := (mem_validPairs _ _).mp (hperm.mem_iff.mpr hm)
        exact ⟨lines, l, hl, hlm, hv, congrArg Prod.fst hpair, congrArg Prod.snd hpair⟩
    · exfalso
      simp only [prevTag, Option.map_eq_some'] at hp
      obtain ⟨d, hfind, _⟩ := hp
      have hd1 := List.find?_some hfind
      have hmem := List.mem_of_find?_eq_some hfind
      rw [List.mem_reverse] at hmem
      obtain ⟨a, _, ha⟩ := List.mem_map.mp hmem
      have := specDecode_lt cfg.s cfg.b a
      rw [ha] at this
      simp only [decide_eq_true_eq] at hd1
      rw [hd1] at this
      exact hs this

theorem counter_invariant_witness :
    1 ≤ (Config.mk 1 2 1).E ∧ (2 : Int) ^ ((Config.mk 1 2 1).s + (Config.mk 1 2 1).b) ≤ INT_MAX ∧
    ∃ st0 st, initState (Config.mk 1 2 1) = some st0 ∧ accessAll (Config.mk 1 2 1) st0 [0, 8, 2, 0] = some st ∧
      (∀ lines ∈ st.cache,
        (∀ l ∈ lines, l.valid = '1' ∨ l.valid = '0') ∧
        (∀ l ∈ lines, l.valid = '0' → l.counter = 0) ∧
        (validCounters lines).Nodup ∧
        (validCounters lines).length ≤ (Config.mk 1 2 1).E ∧
        (validCounters lines).Perm
          (ranks (((Config.mk 1 2 1).E : Int) - (validCounters lines).length + 1)
            (validCounters lines).length) ∧
        (∀ l ∈ lines, 0 ≤ l.counter ∧ l.counter ≤ (Config.mk 1 2 1).E)) ∧
      (∀ set tag, prevTag set (blocksOf (Config.mk 1 2 1) [0, 8, 2, 0]) = some tag →
        ∃ lines l, st.cache[set]? = some lines ∧ l ∈ lines ∧
          l.valid = '1' ∧ l.tag = tag ∧ l.counter = (Config.mk 1 2 1).E) :=
  ⟨by decide, by decide, counter_invariant (Config.mk 1 2 1) [0, 8, 2, 0] (by decide) (by decide)⟩

end Csim
